import Mathlib

/-! Verification of the mediaqueue selection and reconciliation algorithms.

This file embeds the core of `mediaqueue/__init__.py` (natural sort key,
directory-nesting test, the budgeted greedy selector `select_files`, and the
existence-checked reconciler in `main`) as executable Lean definitions, and
proves or refutes the specified properties about them.

Strings are Python `str` values; Python's lexicographic string comparison by
code point corresponds to the lexicographic order on `List Char` (`Char` is
ordered by code point), so comparisons of sort keys are stated on `List Char`.
Python's arbitrary-precision `int` is `Int`; `math.inf` budget values are the
`Limit.inf` constructor.
-/

namespace Mediaqueue

/-! Section: Natural sort key

`numeric_sort_key` in the source:
```python
def numeric_sort_key(str):
    return re.sub('[0-9]+', lambda x: '%s0%s' % ('1' * len(x.group()), x.group()), str)
```
Every maximal run `r` of decimal digits is replaced by `'1' * len(r) + '0' + r`;
all other characters are copied unchanged.  The recursion consumes the whole
maximal digit run at each step, so it is phrased with a fuel argument (bounded
by the length of the list, which suffices because each step consumes at least
one character). -/

/-- One rewriting step's replacement text for a maximal digit run `run`:
`'1' * len(run) + '0' + run`. -/
def runReplacement (run : List Char) : List Char :=
  List.replicate run.length '1' ++ '0' :: run

/-- Fuel-driven implementation of the regex substitution of
`numeric_sort_key`.  Fuel at least the length of the list makes it total. -/
def nskAux : Nat → List Char → List Char
  | _, [] => []
  | 0, _ :: _ => []
  | fuel + 1, c :: cs =>
    if c.isDigit then
      runReplacement (c :: cs.takeWhile Char.isDigit) ++
        nskAux fuel (cs.dropWhile Char.isDigit)
    else
      c :: nskAux fuel cs

/-- The natural sort key of `numeric_sort_key`, on character lists. -/
def nskList (l : List Char) : List Char := nskAux l.length l

/-- The function `numeric_sort_key` itself: a `String → String` transformation. -/
def numeric_sort_key (s : String) : String := ⟨nskList s.data⟩

/-- The key of a string, as a character list (for order comparisons). -/
def nsk (s : String) : List Char := nskList s.data

/-! Section: The function `is_subdir_of` and the `parse_args` nesting check

```python
def is_subdir_of(inner, outer):
    return os.path.commonprefix([inner, outer]) == outer
```
`os.path.commonprefix` of two strings is their longest common character-wise
prefix (it is a plain string operation, not path-component aware). -/

/-- The value of `os.path.commonprefix` on a pair of strings (character-wise longest
common prefix). -/
def commonprefix2 : List Char → List Char → List Char
  | x :: xs, y :: ys => if x = y then x :: commonprefix2 xs ys else []
  | _, _ => []

/-- The function `is_subdir_of(inner, outer)`. -/
def is_subdir_of (inner outer : String) : Bool :=
  commonprefix2 inner.data outer.data == outer.data

/-- The validation in `parse_args` (line 159): the two roots are rejected with
a `UserError` exactly when this is `true`. -/
def parse_args_rejects (active_dir offload_dir : String) : Bool :=
  is_subdir_of active_dir offload_dir || is_subdir_of offload_dir active_dir

/-- Appending a slash gives a string-for-string path-component ancestor test: `a` is a
proper path ancestor of `b` when `a ++ "/"` begins `b`.  Used only to state
that two example paths are NOT nested in the filesystem sense. -/
def isPathAncestor (a b : String) : Bool :=
  List.isPrefixOf (a ++ "/").data b.data

/-! Section: Inventory

`collect_files_with_sizes` produces `size_by_file_by_dir`, a dict from
top-level directory name to a dict from relative file path to byte size.
Dicts are embedded as association lists preserving insertion order. -/

/-- The inventory `size_by_file_by_dir`: group name → (relative path → size in bytes). -/
abbrev Inventory := List (String × List (String × Nat))

/-- The lookup `size_by_file_by_dir[dir]` (empty when absent; well-formed uses always
find the key). -/
def lookupGroup (inv : Inventory) (dir : String) : List (String × Nat) :=
  (inv.lookup dir).getD []

/-- The lookup `size_by_file_by_dir[dir][file]` (0 when absent; well-formed uses always
find the key). -/
def lookupSize (inv : Inventory) (dir file : String) : Nat :=
  ((lookupGroup inv dir).lookup file).getD 0

/-- Well-formedness of an inventory, automatic for values produced by
`collect_files_with_sizes`: group names are distinct (dict keys) and the
relative paths within each group are distinct (dict keys). -/
def WFInv (inv : Inventory) : Prop :=
  (inv.map Prod.fst).Nodup ∧ ∀ g ∈ inv, (g.2.map Prod.fst).Nodup

instance : DecidablePred WFInv := fun inv =>
  inferInstanceAs (Decidable (_ ∧ _))

/-- Total number of files in the inventory. -/
def totalFiles (inv : Inventory) : Nat :=
  (inv.map (fun g => g.2.length)).sum

/-! Section: Budgets -/

/-- A numeric budget: either a Python `int` or `math.inf` (the default of
`--per-directory-limit`, `--global-limit` and `--size-limit`). -/
inductive Limit where
  | inf : Limit
  | fin : Int → Limit
deriving DecidableEq

/-- The comparison `n < limit` with `math.inf` semantics. -/
def Limit.ltB (n : Int) : Limit → Bool
  | .inf => true
  | .fin m => n < m

/-- The comparison `size <= size_limit - num_bytes` with `math.inf` semantics (the literal
comparison from line 219 of the source). -/
def Limit.sizeOk (size num_bytes : Int) : Limit → Bool
  | .inf => true
  | .fin m => size ≤ m - num_bytes

/-- The predicate `0 ≤ limit` (used as a hypothesis; `math.inf` counts as nonnegative). -/
def Limit.nonneg : Limit → Prop
  | .inf => True
  | .fin m => 0 ≤ m

instance : DecidablePred Limit.nonneg := fun l =>
  match l with
  | .inf => inferInstanceAs (Decidable True)
  | .fin m => inferInstanceAs (Decidable (0 ≤ m))

/-- The four budget parameters of `select_files`.  `global_minimum` comes
from an `int`-typed option (default 1), never `math.inf`. -/
structure Budgets where
  per_directory_limit : Limit
  global_limit : Limit
  size_limit : Limit
  global_minimum : Int
deriving DecidableEq

/-! Section: The processing order of `select_files`

```python
def key(x):
    dir, (index, file) = x
    return index, -len(size_by_file_by_dir[dir]), numeric_sort_key(file), dir

ordered_files = sorted(
    ((dir, i)
     for dir, size_by_file in size_by_file_by_dir.items()
     for i in enumerate(sorted(size_by_file.keys(), key=numeric_sort_key))),
    key=key)
```
Python's `sorted` is a stable sort by `≤` on the key tuples (tuples compare
lexicographically); `List.insertionSort` with a reflexive total relation is
also stable, inserting each element before the first earlier-sorted element it
is related to, which matches. -/

/-- The comparison relation of `sorted(..., key=numeric_sort_key)`. -/
def numericLe (a b : String) : Prop := nsk a ≤ nsk b

instance : DecidableRel numericLe := fun a b =>
  inferInstanceAs (Decidable (nsk a ≤ nsk b))

/-- The sort `sorted(size_by_file.keys(), key=numeric_sort_key)`. -/
def sortedNames (sbf : List (String × Nat)) : List String :=
  List.insertionSort numericLe (sbf.map Prod.fst)

/-- A processing entry `(dir, (index, file))`. -/
abbrev Entry := String × Nat × String

/-- The generator inside `sorted(...)`: all `(dir, (index, file))` entries,
with `index` the 0-based rank of `file` within its group under the natural
key order. -/
def allEntries (inv : Inventory) : List Entry :=
  inv.flatMap (fun g => ((sortedNames g.2).enum).map (fun p => (g.1, p)))

/-- The key tuple of the inner `key` function, as a lexicographically ordered
quadruple `(index, -len(size_by_file_by_dir[dir]), numeric_sort_key(file), dir)`. -/
abbrev PKey := Lex (Nat × Lex (Int × Lex (List Char × List Char)))

/-- The key function `key(x)` from the source. -/
def pkey (inv : Inventory) (x : Entry) : PKey :=
  toLex (x.2.1,
    toLex (-((lookupGroup inv x.1).length : Int),
      toLex (nsk x.2.2, x.1.data)))

/-- The ordering used by the outer `sorted(..., key=key)`. -/
def keyRel (inv : Inventory) (x y : Entry) : Prop := pkey inv x ≤ pkey inv y

instance (inv : Inventory) : DecidableRel (keyRel inv) := fun x y =>
  inferInstanceAs (Decidable (pkey inv x ≤ pkey inv y))

instance (inv : Inventory) : IsTotal Entry (keyRel inv) :=
  ⟨fun a b => le_total (pkey inv a) (pkey inv b)⟩

instance (inv : Inventory) : IsTrans Entry (keyRel inv) :=
  ⟨fun _ _ _ hab hbc => le_trans hab hbc⟩

/-- The list `ordered_files` from the source. -/
def ordered_files (inv : Inventory) : List Entry :=
  List.insertionSort (keyRel inv) (allEntries inv)

/-! Section: The selection loop

```python
num_files_by_directory = collections.defaultdict(lambda: 0)
num_files = 0
num_bytes = 0
capped_directories = set()

for dir, (_, file) in ordered_files:
    size = size_by_file_by_dir[dir][file]
    activate = (
        num_files < global_minimum
        or (
            num_files_by_directory[dir] < per_directory_limit
            and num_files < global_limit
            and size <= size_limit - num_bytes)) \
               and dir not in capped_directories

    yield activate, dir, file

    if activate:
        num_files_by_directory[dir] += 1
        num_files += 1
        num_bytes += size
    else:
        capped_directories.add(dir)
```
-/

/-- The loop state of `iter_files`. -/
structure SelSt where
  num_files_by_directory : List (String × Nat)
  num_files : Nat
  num_bytes : Nat
  capped_directories : List String
deriving DecidableEq

/-- The counter `num_files_by_directory[dir]` (a `defaultdict` returning 0). -/
def SelSt.dirCount (st : SelSt) (dir : String) : Nat :=
  (st.num_files_by_directory.lookup dir).getD 0

/-- The update `num_files_by_directory[dir] += 1`. -/
def bumpDir : List (String × Nat) → String → List (String × Nat)
  | [], d => [(d, 1)]
  | (k, n) :: rest, d =>
    if k = d then (k, n + 1) :: rest else (k, n) :: bumpDir rest d

/-- The `activate` expression computed for one file (source lines 214-220). -/
def activateOf (inv : Inventory) (b : Budgets) (st : SelSt)
    (dir file : String) : Bool :=
  (decide ((st.num_files : Int) < b.global_minimum)
    || (Limit.ltB (st.dirCount dir : Int) b.per_directory_limit
        && Limit.ltB (st.num_files : Int) b.global_limit
        && Limit.sizeOk (lookupSize inv dir file : Int) (st.num_bytes : Int)
            b.size_limit))
  && !(st.capped_directories.contains dir)

/-- The state update after yielding one decision (source lines 224-229). -/
def selStep (inv : Inventory) (st : SelSt) (dir file : String)
    (activate : Bool) : SelSt :=
  if activate then
    { st with
      num_files_by_directory := bumpDir st.num_files_by_directory dir,
      num_files := st.num_files + 1,
      num_bytes := st.num_bytes + lookupSize inv dir file }
  else
    { st with capped_directories := dir :: st.capped_directories }

/-- The decision list produced by the loop from a given state. -/
def selGo (inv : Inventory) (b : Budgets) :
    List Entry → SelSt → List (Bool × String × String)
  | [], _ => []
  | x :: xs, st =>
    let a := activateOf inv b st x.1 x.2.2
    (a, x.1, x.2.2) :: selGo inv b xs (selStep inv st x.1 x.2.2 a)

/-- The loop state after consuming a list of entries. -/
def selFinal (inv : Inventory) (b : Budgets) :
    List Entry → SelSt → SelSt
  | [], st => st
  | x :: xs, st =>
    selFinal inv b xs (selStep inv st x.1 x.2.2 (activateOf inv b st x.1 x.2.2))

/-- The initial loop state. -/
def initSt : SelSt := ⟨[], 0, 0, []⟩

/-- The function `select_files`: the list of `(activate, dir, file)` decisions. -/
def select_files (inv : Inventory) (b : Budgets) :
    List (Bool × String × String) :=
  selGo inv b (ordered_files inv) initSt

/-- Number of decisions with `activate = True`. -/
def activatedCount (ds : List (Bool × String × String)) : Nat :=
  (ds.filter (fun d => d.1)).length

/-- Combined size of the files decided active (sizes read from the
inventory, exactly as the loop does). -/
def activatedSize (inv : Inventory) (ds : List (Bool × String × String)) : Nat :=
  ((ds.filter (fun d => d.1)).map (fun d => lookupSize inv d.2.1 d.2.2)).sum

/-- The files of group `g` in rank order (rank = position under the natural
key order, as assigned by `enumerate(sorted(...))`). -/
def rankedFiles (inv : Inventory) (g : String) : List String :=
  sortedNames (lookupGroup inv g)

/-! Section: Basic properties of the natural sort key -/

theorem nskAux_congr : ∀ (f₁ f₂ : Nat) (l : List Char), l.length ≤ f₁ →
    l.length ≤ f₂ → nskAux f₁ l = nskAux f₂ l := by
  intro f₁
  induction f₁ with
  | zero =>
    intro f₂ l h₁ h₂
    cases l with
    | nil => cases f₂ <;> rfl
    | cons c cs => simp at h₁
  | succ k ih =>
    intro f₂ l h₁ h₂
    cases l with
    | nil => cases f₂ <;> rfl
    | cons c cs =>
      cases f₂ with
      | zero => simp at h₂
      | succ m =>
        simp only [List.length_cons, Nat.succ_le_succ_iff] at h₁ h₂
        simp only [nskAux]
        by_cases hc : c.isDigit
        · simp only [hc, if_true]
          have hd : (cs.dropWhile Char.isDigit).length ≤ cs.length :=
            List.IsSuffix.length_le (List.dropWhile_suffix Char.isDigit)
          rw [ih m _ (le_trans hd h₁) (le_trans hd h₂)]
        · simp only [hc, Bool.false_eq_true, if_false]
          rw [ih m cs h₁ h₂]

theorem nskList_cons (c : Char) (cs : List Char) :
    nskList (c :: cs) =
      if c.isDigit then
        runReplacement (c :: cs.takeWhile Char.isDigit) ++
          nskList (cs.dropWhile Char.isDigit)
      else c :: nskList cs := by
  show nskAux (cs.length + 1) (c :: cs) = _
  simp only [nskAux]
  by_cases hc : c.isDigit
  · simp only [hc, if_true]
    have hd : (cs.dropWhile Char.isDigit).length ≤ cs.length :=
      List.IsSuffix.length_le (List.dropWhile_suffix Char.isDigit)
    rw [nskAux_congr cs.length (cs.dropWhile Char.isDigit).length _ hd le_rfl]
    rfl
  · simp only [hc, if_false]
    rfl

/-- Truth of: the last character of `p`, if any, is not a digit (so a digit
run ending at the end of `p` is impossible and any digit run that follows `p`
is maximal on its left). -/
def noTrailingDigit (p : List Char) : Bool :=
  match p.getLast? with
  | none => true
  | some c => !c.isDigit

/-- Truth of: the first character of `q`, if any, is not a digit (so a digit
run that precedes `q` is maximal on its right). -/
def noLeadingDigit (q : List Char) : Bool :=
  match q.head? with
  | none => true
  | some c => !c.isDigit

theorem takeWhile_digits_append (r q : List Char) (hr : r.all Char.isDigit)
    (hq : noLeadingDigit q) :
    (r ++ q).takeWhile Char.isDigit = r ∧ (r ++ q).dropWhile Char.isDigit = q := by
  induction r with
  | nil =>
    simp only [List.nil_append]
    cases q with
    | nil => simp
    | cons d ds =>
      have hd : d.isDigit = false := by
        simpa [noLeadingDigit] using hq
      simp [List.takeWhile_cons, List.dropWhile_cons, hd]
  | cons c r' ih =>
    simp only [List.all_cons, Bool.and_eq_true] at hr
    have := ih hr.2
    simp [List.takeWhile_cons, List.dropWhile_cons, hr.1, this.1, this.2]

theorem nskList_run_append (r q : List Char) (hne : r ≠ [])
    (hr : r.all Char.isDigit) (hq : noLeadingDigit q) :
    nskList (r ++ q) = runReplacement r ++ nskList q := by
  cases r with
  | nil => exact absurd rfl hne
  | cons c r' =>
    have hr' : r'.all Char.isDigit := by
      simp only [List.all_cons, Bool.and_eq_true] at hr; exact hr.2
    have hc : c.isDigit := by
      simp only [List.all_cons, Bool.and_eq_true] at hr; exact hr.1
    have h := takeWhile_digits_append r' q hr' hq
    rw [List.cons_append, nskList_cons]
    simp [hc, h.1, h.2]

theorem noTrailingDigit_of_cons {c : Char} {p' : List Char}
    (h : noTrailingDigit (c :: p')) (hne : p' ≠ []) : noTrailingDigit p' := by
  cases p' with
  | nil => exact absurd rfl hne
  | cons d p'' => simpa [noTrailingDigit, List.getLast?_cons_cons] using h

theorem nskList_append : ∀ (n : Nat) (p s : List Char), p.length ≤ n →
    noTrailingDigit p → nskList (p ++ s) = nskList p ++ nskList s := by
  intro n
  induction n with
  | zero =>
    intro p s h _
    have : p = [] := List.length_eq_zero.mp (Nat.le_zero.mp h)
    simp [this, nskList, nskAux]
  | succ k ih =>
    intro p s h hp
    cases p with
    | nil => simp [nskList, nskAux]
    | cons c p' =>
      simp only [List.length_cons, Nat.succ_le_succ_iff] at h
      by_cases hc : c.isDigit
      · -- the head starts a digit run; since the last character of `c :: p'`
        -- is not a digit, the run ends inside `p'`.
        have hp'ne : p' ≠ [] := by
          intro he
          subst he
          simp [noTrailingDigit, hc] at hp
        have hlast : ∃ d, p'.getLast? = some d ∧ d.isDigit = false := by
          cases hd : p'.getLast? with
          | none => exact absurd (List.getLast?_eq_none_iff.mp hd) hp'ne
          | some d =>
            refine ⟨d, rfl, ?_⟩
            have := noTrailingDigit_of_cons hp hp'ne
            simpa [noTrailingDigit, hd] using this
        obtain ⟨d, hd, hdd⟩ := hlast
        -- the dropWhile part of p' is nonempty
        have hdw : p'.dropWhile Char.isDigit ≠ [] := by
          intro he
          have hall : ∀ x ∈ p', x.isDigit := by
            intro x hx
            exact List.dropWhile_eq_nil_iff.mp he x hx
          have : d ∈ p' := by
            obtain ⟨hh, he⟩ := List.mem_getLast?_eq_getLast (x := d) (l := p')
              (by simp [hd])
            exact he ▸ List.getLast_mem hh
          have := hall d this
          rw [hdd] at this
          exact Bool.false_ne_true this
        -- takeWhile of p' is shorter than p'
        have htw : (p'.takeWhile Char.isDigit).length ≠ p'.length := by
          intro he
          have h2 := List.takeWhile_append_dropWhile (p := Char.isDigit) (l := p')
          have h3 : (p'.takeWhile Char.isDigit).length +
              (p'.dropWhile Char.isDigit).length = p'.length := by
            rw [← List.length_append, h2]
          have : (p'.dropWhile Char.isDigit).length = 0 := by omega
          exact hdw (List.length_eq_zero.mp this)
        rw [List.cons_append, nskList_cons, nskList_cons]
        simp only [hc, if_true]
        rw [List.takeWhile_append, List.dropWhile_append]
        simp only [htw, if_false, List.isEmpty_iff, hdw, if_false]
        have hsx : (p'.dropWhile Char.isDigit).length ≤ k := by
          have : (p'.dropWhile Char.isDigit).length ≤ p'.length :=
            List.IsSuffix.length_le (List.dropWhile_suffix Char.isDigit)
          omega
        have hnt : noTrailingDigit (p'.dropWhile Char.isDigit) := by
          obtain ⟨t, ht⟩ := List.dropWhile_suffix (l := p') Char.isDigit
          have : (p'.dropWhile Char.isDigit).getLast? = p'.getLast? := by
            conv_rhs => rw [← ht]
            rw [List.getLast?_append]
            cases hcase : (p'.dropWhile Char.isDigit).getLast? with
            | none => exact absurd (List.getLast?_eq_none_iff.mp hcase) hdw
            | some x => rfl
          simp [noTrailingDigit, this, hd, hdd]
        rw [ih (p'.dropWhile Char.isDigit) s hsx hnt, List.append_assoc]
      · -- a copied character
        have hnt' : noTrailingDigit p' ∨ p' = [] := by
          cases hp' : p' with
          | nil => exact Or.inr rfl
          | cons d p'' =>
            exact Or.inl (noTrailingDigit_of_cons (hp' ▸ hp) (by simp))
        rw [List.cons_append, nskList_cons, nskList_cons]
        simp only [hc, Bool.false_eq_true, if_false]
        rcases hnt' with hnt' | hnil
        · rw [ih p' s h hnt', List.cons_append]
        · simp [hnil, nskList, nskAux]


theorem nskList_ne_nil (c : Char) (cs : List Char) : nskList (c :: cs) ≠ [] := by
  rw [nskList_cons]
  by_cases hc : c.isDigit <;>
    simp [hc, runReplacement, List.replicate_succ]

theorem replicate_one_zero_inj : ∀ (n₁ n₂ : Nat) (t₁ t₂ : List Char),
    List.replicate n₁ '1' ++ '0' :: t₁ = List.replicate n₂ '1' ++ '0' :: t₂ →
    n₁ = n₂ ∧ t₁ = t₂ := by
  intro n₁
  induction n₁ with
  | zero =>
    intro n₂ t₁ t₂ h
    cases n₂ with
    | zero => simpa using h
    | succ m =>
      simp only [List.replicate_zero, List.replicate_succ, List.nil_append,
        List.cons_append, List.cons.injEq] at h
      exact absurd h.1 (by decide)
  | succ k ih =>
    intro n₂ t₁ t₂ h
    cases n₂ with
    | zero =>
      simp only [List.replicate_zero, List.replicate_succ, List.nil_append,
        List.cons_append, List.cons.injEq] at h
      exact absurd h.1 (by decide)
    | succ m =>
      rw [List.replicate_succ, List.replicate_succ] at h
      simp only [List.cons_append, List.cons.injEq, true_and] at h
      obtain ⟨h3, h4⟩ := ih m t₁ t₂ h
      exact ⟨by omega, h4⟩

theorem runReplacement_append (r N : List Char) :
    runReplacement r ++ N = List.replicate r.length '1' ++ '0' :: (r ++ N) := by
  simp [runReplacement]

theorem nskList_inj_aux : ∀ (n : Nat) (l₁ l₂ : List Char), l₁.length ≤ n →
    nskList l₁ = nskList l₂ → l₁ = l₂ := by
  intro n
  induction n with
  | zero =>
    intro l₁ l₂ h he
    have h1 : l₁ = [] := List.length_eq_zero.mp (Nat.le_zero.mp h)
    subst h1
    cases l₂ with
    | nil => rfl
    | cons d ds => exact absurd he.symm (nskList_ne_nil d ds)
  | succ k ih =>
    intro l₁ l₂ h he
    cases l₁ with
    | nil =>
      cases l₂ with
      | nil => rfl
      | cons d ds => exact absurd he.symm (nskList_ne_nil d ds)
    | cons c cs =>
      cases l₂ with
      | nil => exact absurd he (nskList_ne_nil c cs)
      | cons d ds =>
        simp only [List.length_cons, Nat.succ_le_succ_iff] at h
        rw [nskList_cons, nskList_cons] at he
        by_cases hc : c.isDigit <;> by_cases hd : d.isDigit
        · simp only [hc, hd, if_true] at he
          rw [runReplacement_append, runReplacement_append] at he
          obtain ⟨hlen, happ⟩ :=
            replicate_one_zero_inj _ _ _ _ he
          obtain ⟨hrun, hN⟩ := List.append_inj happ hlen
          have hcd : c = d := by
            have := congrArg List.head? hrun
            simpa using this
          have htw : cs.takeWhile Char.isDigit = ds.takeWhile Char.isDigit := by
            have := congrArg List.tail hrun
            simpa using this
          have hlen2 : (cs.dropWhile Char.isDigit).length ≤ k := by
            have : (cs.dropWhile Char.isDigit).length ≤ cs.length :=
              List.IsSuffix.length_le (List.dropWhile_suffix Char.isDigit)
            omega
          have hds : cs.dropWhile Char.isDigit = ds.dropWhile Char.isDigit :=
            ih _ _ hlen2 hN
          have : cs = ds := by
            conv_lhs => rw [← List.takeWhile_append_dropWhile (p := Char.isDigit)
              (l := cs)]
            conv_rhs => rw [← List.takeWhile_append_dropWhile (p := Char.isDigit)
              (l := ds)]
            rw [htw, hds]
          rw [hcd, this]
        · simp only [hc, hd, if_true, Bool.false_eq_true, if_false] at he
          rw [runReplacement_append] at he
          have hh := congrArg List.head? he
          simp only [List.length_cons, List.replicate_succ, List.cons_append,
            List.head?_cons, Option.some.injEq] at hh
          rw [← hh] at hd
          exact absurd (by decide) hd
        · simp only [hc, hd, if_true, Bool.false_eq_true, if_false] at he
          rw [runReplacement_append] at he
          have hh := congrArg List.head? he
          simp only [List.length_cons, List.replicate_succ, List.cons_append,
            List.head?_cons, Option.some.injEq] at hh
          rw [hh] at hc
          exact absurd (by decide) hc
        · simp only [hc, hd, Bool.false_eq_true, if_false,
            List.cons.injEq] at he
          obtain ⟨h1, h2⟩ := he
          rw [h1, ih _ _ h h2]

/-- Injectivity of the natural sort key: distinct strings have distinct keys
(the replacement `'1'^n ++ '0' ++ run` is uniquely decodable, because every
digit of the input lies inside a run and each block's run length is the
number of ones before the block's first zero). -/
theorem nskList_inj {l₁ l₂ : List Char} (h : nskList l₁ = nskList l₂) :
    l₁ = l₂ :=
  nskList_inj_aux l₁.length l₁ l₂ le_rfl h

theorem nsk_inj {s t : String} (h : nsk s = nsk t) : s = t :=
  String.ext (nskList_inj h)

instance : IsAntisymm String numericLe :=
  ⟨fun _ _ h₁ h₂ => nsk_inj (le_antisymm h₁ h₂)⟩

theorem pkey_inj {inv : Inventory} {x y : Entry} (h : pkey inv x = pkey inv y) :
    x = y := by
  obtain ⟨dx, ix, fx⟩ := x
  obtain ⟨dy, iy, fy⟩ := y
  simp only [pkey, toLex_inj, Prod.mk.injEq] at h
  obtain ⟨h1, -, h2, h3⟩ := h
  have hf : fx = fy := nsk_inj h2
  have hdir : dx = dy := String.ext h3
  simp [h1, hf, hdir]

instance (inv : Inventory) : IsAntisymm Entry (keyRel inv) :=
  ⟨fun _ _ h₁ h₂ => pkey_inj (le_antisymm h₁ h₂)⟩

/-! Section: Lexicographic comparison lemmas for the natural key (claim C9) -/

theorem list_lt_iff_lex (l l' : List Char) : l < l' ↔ List.Lex (· < ·) l l' :=
  Iff.rfl

theorem lex_append_left {r : Char → Char → Prop} :
    ∀ (t u v : List Char), List.Lex r u v → List.Lex r (t ++ u) (t ++ v)
  | [], _, _, h => h
  | _ :: t', u, v, h => List.Lex.cons (lex_append_left t' u v h)

theorem lex_append_of_length {r : Char → Char → Prop} :
    ∀ {u v : List Char}, List.Lex r u v → u.length = v.length →
      ∀ (x y : List Char), List.Lex r (u ++ x) (v ++ y) := by
  intro u v h
  induction h with
  | nil => intro hl; simp at hl
  | rel hab => intro _ x y; exact List.Lex.rel hab
  | cons _ ih =>
    intro hl x y
    exact List.Lex.cons (ih (by simpa using hl) x y)

theorem lex_of_append_left {r : Char → Char → Prop} (hirr : ∀ a, ¬r a a) :
    ∀ (t u v : List Char), List.Lex r (t ++ u) (t ++ v) → List.Lex r u v
  | [], _, _, h => h
  | c :: t', u, v, h => by
    cases h with
    | cons h' => exact lex_of_append_left hirr t' u v h'
    | rel hab => exact absurd hab (hirr c)

theorem lex_irrefl_list {r : Char → Char → Prop} (hirr : ∀ a, ¬r a a) :
    ∀ (l : List Char), ¬List.Lex r l l
  | _ :: l', h => by
    cases h with
    | cons h' => exact lex_irrefl_list hirr l' h'
    | rel hab => exact hirr _ hab

theorem lex_cancel_right {r : Char → Char → Prop} (hirr : ∀ a, ¬r a a) :
    ∀ (u v t : List Char), u.length = v.length →
      List.Lex r (u ++ t) (v ++ t) → List.Lex r u v := by
  intro u
  induction u with
  | nil =>
    intro v t hl h
    have hv : v = [] := by
      cases v with
      | nil => rfl
      | cons b bs => simp at hl
    subst hv
    exact absurd h (lex_irrefl_list hirr t)
  | cons a as ih =>
    intro v t hl h
    cases v with
    | nil => simp at hl
    | cons b bs =>
      cases h with
      | cons h' => exact List.Lex.cons (ih bs t (by simpa using hl) h')
      | rel hab => exact List.Lex.rel hab

/-- Decomposition of the key of a filename `p ++ r ++ q` whose digit run `r`
is maximal (`p` does not end with a digit, `q` does not start with one). -/
theorem nskList_decompose (p r q : List Char) (hp : noTrailingDigit p)
    (hq : noLeadingDigit q) (hne : r ≠ []) (hall : r.all Char.isDigit) :
    nskList (p ++ r ++ q) =
      (nskList p ++ List.replicate r.length '1' ++ ['0']) ++ (r ++ nskList q) := by
  rw [List.append_assoc, nskList_append p.length p _ le_rfl hp,
    nskList_run_append r q hne hall hq, runReplacement_append]
  simp [List.append_assoc]

/-- C9: for two filenames identical except for one maximal decimal-digit run,
a strictly longer run makes the natural key lexicographically greater
(run length dominates, so "007" sorts after "12"), and for equal-length runs
the keys compare exactly as the runs do, digit by digit (lexicographically on
the run characters). -/
theorem C9_run_length_dominates (p r₁ r₂ q : List Char)
    (hp : noTrailingDigit p) (hq : noLeadingDigit q)
    (h₁ : r₁ ≠ []) (h₁d : r₁.all Char.isDigit)
    (h₂ : r₂ ≠ []) (h₂d : r₂.all Char.isDigit) :
    (r₂.length < r₁.length →
      (numeric_sort_key ⟨p ++ r₂ ++ q⟩).data < (numeric_sort_key ⟨p ++ r₁ ++ q⟩).data) ∧
    (r₁.length = r₂.length →
      ((numeric_sort_key ⟨p ++ r₁ ++ q⟩).data < (numeric_sort_key ⟨p ++ r₂ ++ q⟩).data ↔
        List.Lex (· < ·) r₁ r₂)) := by
  have hirr : ∀ a : Char, ¬a < a := fun a => lt_irrefl a
  have hdata : ∀ l : List Char, (numeric_sort_key ⟨l⟩).data = nskList l :=
    fun l => rfl
  constructor
  · intro hlen
    rw [hdata, hdata, list_lt_iff_lex,
      nskList_decompose p r₁ q hp hq h₁ h₁d,
      nskList_decompose p r₂ q hp hq h₂ h₂d]
    simp only [List.append_assoc]
    apply lex_append_left
    obtain ⟨k, hk⟩ : ∃ k, r₁.length = r₂.length + (k + 1) :=
      ⟨r₁.length - r₂.length - 1, by omega⟩
    rw [hk, List.replicate_add]
    simp only [List.append_assoc]
    apply lex_append_left
    rw [List.replicate_succ, List.cons_append]
    exact List.Lex.rel (by decide)
  · intro hlen
    rw [hdata, hdata, list_lt_iff_lex,
      nskList_decompose p r₁ q hp hq h₁ h₁d,
      nskList_decompose p r₂ q hp hq h₂ h₂d, hlen]
    simp only [List.append_assoc]
    constructor
    · intro h
      have h' := lex_of_append_left hirr _ _ _ h
      have h'' := lex_of_append_left hirr _ _ _ h'
      have h3 := lex_of_append_left hirr _ _ _ h''
      exact lex_cancel_right hirr r₁ r₂ (nskList q) hlen h3
    · intro h
      apply lex_append_left
      apply lex_append_left
      apply lex_append_left
      exact lex_append_of_length h hlen (nskList q) (nskList q)

/-- Witness for C9 at the spec's own example: the run "007" dominates "12",
so "f12.m" sorts before "f007.m". -/
theorem C9_run_length_dominates_witness :
    (numeric_sort_key ⟨['f'] ++ ['1', '2'] ++ ['.', 'm']⟩).data <
      (numeric_sort_key ⟨['f'] ++ ['0', '0', '7'] ++ ['.', 'm']⟩).data :=
  (C9_run_length_dominates ['f'] ['0', '0', '7'] ['1', '2'] ['.', 'm']
    (by decide) (by decide) (by decide) (by decide) (by decide) (by decide)).1
    (by decide)

/-! Section: Comparison of an accumulated amount against a budget -/

/-- The predicate `n ≤ limit` with `math.inf` semantics. -/
def Limit.le (n : Int) : Limit → Prop
  | .inf => True
  | .fin m => n ≤ m

instance (n : Int) : DecidablePred (Limit.le n) := fun l =>
  match l with
  | .inf => inferInstanceAs (Decidable True)
  | .fin m => inferInstanceAs (Decidable (n ≤ m))

/-! Section: Claims C4, C10 and the counterexample to C2 -/

/-- C4: for an inventory with exactly one file of size 1000, with
`size_limit = 0` and `global_minimum = 1` (other limits `math.inf`),
`select_files` decides to activate the file: the minimum overrides the size
budget for the first file processed. -/
theorem C4_minimum_overrides_size_limit :
    select_files [("a", [("f", 1000)])]
      ⟨Limit.inf, Limit.inf, Limit.fin 0, 1⟩ = [(true, "a", "f")] := by
  decide

/-- C10: the nesting check is a plain string-prefix test.  The sibling paths
"/data/foo" and "/data/foobar" are distinct and neither is a path-component
ancestor of the other, yet `is_subdir_of "/data/foobar" "/data/foo"` is true
and the `parse_args` validation rejects the pair with a `UserError`. -/
theorem C10_nesting_check_plain_string : ("/data/foo" : String) ≠ "/data/foobar" ∧
    isPathAncestor "/data/foo" "/data/foobar" = false ∧
    isPathAncestor "/data/foobar" "/data/foo" = false ∧
    is_subdir_of "/data/foobar" "/data/foo" = true ∧
    parse_args_rejects "/data/foo" "/data/foobar" = true := by
  decide

/-- Counterexample to C2 as stated: with one file of size 1000,
`size_limit = 0` and `global_minimum = 1`, the activated byte total is 1000,
which exceeds `size_limit`. -/
theorem C2_counterexample :
    ¬Limit.le (activatedSize [("a", [("f", 1000)])]
        (select_files [("a", [("f", 1000)])]
          ⟨Limit.inf, Limit.inf, Limit.fin 0, 1⟩) : Int)
      (Budgets.size_limit ⟨Limit.inf, Limit.inf, Limit.fin 0, 1⟩) := by
  decide

/-! Section: Accounting lemmas for the selection loop -/

theorem selGo_num_bytes (inv : Inventory) (b : Budgets) :
    ∀ (l : List Entry) (st : SelSt),
      (selFinal inv b l st).num_bytes =
        st.num_bytes + activatedSize inv (selGo inv b l st) := by
  intro l
  induction l with
  | nil => intro st; simp [selFinal, selGo, activatedSize]
  | cons x xs ih =>
    intro st
    simp only [selFinal, selGo]
    rw [ih]
    by_cases ha : activateOf inv b st x.1 x.2.2
    · simp [ha, selStep, activatedSize]
      omega
    · simp [ha, selStep, activatedSize]

theorem selGo_num_files (inv : Inventory) (b : Budgets) :
    ∀ (l : List Entry) (st : SelSt),
      (selFinal inv b l st).num_files =
        st.num_files + activatedCount (selGo inv b l st) := by
  intro l
  induction l with
  | nil => intro st; simp [selFinal, selGo, activatedCount]
  | cons x xs ih =>
    intro st
    simp only [selFinal, selGo]
    rw [ih]
    by_cases ha : activateOf inv b st x.1 x.2.2
    · simp [ha, selStep, activatedCount]
      omega
    · simp [ha, selStep, activatedCount]

theorem selFinal_num_files_mono (inv : Inventory) (b : Budgets) :
    ∀ (l : List Entry) (st : SelSt),
      st.num_files ≤ (selFinal inv b l st).num_files := by
  intro l
  induction l with
  | nil => intro st; exact le_rfl
  | cons x xs ih =>
    intro st
    refine le_trans ?_ (ih (selStep inv st x.1 x.2.2 (activateOf inv b st x.1 x.2.2)))
    by_cases ha : activateOf inv b st x.1 x.2.2 <;> simp [ha, selStep]

/-- Preservation of the size-budget invariant: the running byte total is
within the size budget unless the activation count is still within the
forced minimum. -/
theorem selFinal_size_invariant (inv : Inventory) (b : Budgets) :
    ∀ (l : List Entry) (st : SelSt),
      (Limit.le (st.num_bytes : Int) b.size_limit ∨
        (st.num_files : Int) ≤ b.global_minimum) →
      (Limit.le ((selFinal inv b l st).num_bytes : Int) b.size_limit ∨
        ((selFinal inv b l st).num_files : Int) ≤ b.global_minimum) := by
  intro l
  induction l with
  | nil => intro st h; exact h
  | cons x xs ih =>
    intro st h
    simp only [selFinal]
    apply ih
    by_cases ha : activateOf inv b st x.1 x.2.2
    · have ha' := ha
      unfold activateOf at ha'
      simp only [Bool.and_eq_true, Bool.or_eq_true, decide_eq_true_eq] at ha'
      rcases ha'.1 with hmin | hbudget
      · right
        simp only [selStep, ha, if_true]
        push_cast
        omega
      · have hsz := hbudget.2
        cases hsl : b.size_limit with
        | inf => left; simp [Limit.le, hsl]
        | fin m =>
          left
          rw [hsl] at hsz
          simp only [Limit.sizeOk, decide_eq_true_eq] at hsz
          simp only [selStep, ha, if_true, Limit.le]
          push_cast
          omega
    · simp only [selStep, ha, if_false]
      exact h

/-- Preservation of the minimum-count invariant: as long as no group has
been capped, every processed file was activated; once the minimum is met it
stays met. -/
theorem selFinal_min_invariant (inv : Inventory) (b : Budgets) :
    ∀ (l : List Entry) (st : SelSt),
      (st.capped_directories = [] ∨ b.global_minimum ≤ (st.num_files : Int)) →
      min b.global_minimum ((st.num_files : Int) + l.length) ≤
        ((selFinal inv b l st).num_files : Int) := by
  intro l
  induction l with
  | nil =>
    intro st _
    simp only [selFinal, List.length_nil, Nat.cast_zero, add_zero]
    exact min_le_right _ _
  | cons x xs ih =>
    intro st h
    have hmono : (st.num_files : Int) ≤
        ((selFinal inv b (x :: xs) st).num_files : Int) := by
      exact_mod_cast selFinal_num_files_mono inv b (x :: xs) st
    by_cases hlt : (st.num_files : Int) < b.global_minimum
    · rcases h with hcap | hge
      · -- no cap yet and the minimum branch applies: the file is activated
        have ha : activateOf inv b st x.1 x.2.2 = true := by
          unfold activateOf
          simp [hcap, hlt]
        simp only [selFinal, ha]
        have hcap' : (selStep inv st x.1 x.2.2 true).capped_directories = [] := by
          simp [selStep, hcap]
        have hnf : (selStep inv st x.1 x.2.2 true).num_files = st.num_files + 1 := by
          simp [selStep]
        have := ih (selStep inv st x.1 x.2.2 true) (Or.inl hcap')
        rw [hnf] at this
        have harith : ((st.num_files + 1 : Nat) : Int) + (xs.length : Int) =
            (st.num_files : Int) + ((x :: xs).length : Int) := by
          push_cast
          simp
          omega
        rw [harith] at this
        exact this
      · omega
    · -- the minimum is already met; it stays met by monotonicity
      have : min b.global_minimum ((st.num_files : Int) + (x :: xs).length) ≤
          (st.num_files : Int) := le_trans (min_le_left _ _) (by omega)
      omega

/-! Section: Claims C2 (amended) and C3 -/

/-- C2 as amended: for a nonnegative `size_limit`, the combined size of the
activated files respects `size_limit` unless the activation count is within
`global_minimum` (activations forced by the minimum ignore the size budget). -/
theorem C2_amended (inv : Inventory) (b : Budgets) (h : b.size_limit.nonneg) :
    Limit.le (activatedSize inv (select_files inv b) : Int) b.size_limit ∨
      (activatedCount (select_files inv b) : Int) ≤ b.global_minimum := by
  have base : Limit.le ((initSt.num_bytes : Nat) : Int) b.size_limit := by
    cases hb : b.size_limit with
    | inf => trivial
    | fin m =>
      have : (0 : Int) ≤ m := by
        have := h
        rw [hb] at this
        exact this
      simpa [Limit.le, initSt] using this
  have hinv := selFinal_size_invariant inv b (ordered_files inv) initSt
    (Or.inl base)
  rw [selGo_num_bytes, selGo_num_files] at hinv
  simpa [select_files, initSt] using hinv

theorem C2_amended_witness :
    Limit.nonneg (Budgets.size_limit ⟨Limit.inf, Limit.inf, Limit.fin 250, 1⟩) ∧
      (Limit.le (activatedSize
          [("a", [("f1", 100), ("f2", 100), ("f3", 100), ("f4", 100), ("f5", 100)])]
          (select_files
            [("a", [("f1", 100), ("f2", 100), ("f3", 100), ("f4", 100), ("f5", 100)])]
            ⟨Limit.inf, Limit.inf, Limit.fin 250, 1⟩) : Int)
        (Budgets.size_limit ⟨Limit.inf, Limit.inf, Limit.fin 250, 1⟩) ∨
      (activatedCount (select_files
          [("a", [("f1", 100), ("f2", 100), ("f3", 100), ("f4", 100), ("f5", 100)])]
          ⟨Limit.inf, Limit.inf, Limit.fin 250, 1⟩) : Int) ≤ 1) :=
  ⟨by decide, C2_amended
    [("a", [("f1", 100), ("f2", 100), ("f3", 100), ("f4", 100), ("f5", 100)])]
    ⟨Limit.inf, Limit.inf, Limit.fin 250, 1⟩ (by decide)⟩

theorem length_sortedNames (sbf : List (String × Nat)) :
    (sortedNames sbf).length = sbf.length := by
  rw [sortedNames]
  rw [(List.perm_insertionSort numericLe (sbf.map Prod.fst)).length_eq]
  exact List.length_map _ _

theorem length_ordered_files (inv : Inventory) :
    (ordered_files inv).length = totalFiles inv := by
  rw [ordered_files]
  rw [(List.perm_insertionSort (keyRel inv) (allEntries inv)).length_eq]
  rw [allEntries, List.length_flatMap, totalFiles]
  apply congrArg
  apply List.map_congr_left
  intro g _
  simp only [Function.comp_apply]
  rw [List.length_map, List.enum_length, length_sortedNames]

/-- C3: the number of activated files is at least the smaller of
`global_minimum` and the total number of files, whatever the other three
budgets are.  A group is capped only when a file is rejected, and a file is
rejected only once `num_files` has reached `global_minimum`; until then every
processed file is activated. -/
theorem C3_global_minimum (inv : Inventory) (b : Budgets)
    (hgm : 0 ≤ b.global_minimum) :
    min b.global_minimum (totalFiles inv : Int) ≤
      (activatedCount (select_files inv b) : Int) := by
  have h := selFinal_min_invariant inv b (ordered_files inv) initSt
    (Or.inl rfl)
  rw [selGo_num_files] at h
  rw [length_ordered_files] at h
  simpa [select_files, initSt] using h

theorem C3_global_minimum_witness :
    (0 : Int) ≤ Budgets.global_minimum ⟨Limit.fin 0, Limit.fin 0, Limit.fin 0, 2⟩ ∧
      min (Budgets.global_minimum ⟨Limit.fin 0, Limit.fin 0, Limit.fin 0, 2⟩)
        ((totalFiles [("a", [("f1", 50), ("f2", 50), ("f3", 50)])] : Nat) : Int) ≤
      (activatedCount (select_files [("a", [("f1", 50), ("f2", 50), ("f3", 50)])]
        ⟨Limit.fin 0, Limit.fin 0, Limit.fin 0, 2⟩) : Int) :=
  ⟨by decide, C3_global_minimum [("a", [("f1", 50), ("f2", 50), ("f3", 50)])]
    ⟨Limit.fin 0, Limit.fin 0, Limit.fin 0, 2⟩ (by decide)⟩

/-! Section: Association-list lookup lemmas -/

theorem lookup_of_mem_of_nodup {β : Type} :
    ∀ {l : List (String × β)} {a : String} {b : β},
      (l.map Prod.fst).Nodup → (a, b) ∈ l → l.lookup a = some b := by
  intro l
  induction l with
  | nil => intro a b _ h; simp at h
  | cons kv rest ih =>
    intro a b hnd h
    obtain ⟨k, v⟩ := kv
    simp only [List.map_cons, List.nodup_cons] at hnd
    rcases List.mem_cons.mp h with heq | htail
    · obtain ⟨h1, h2⟩ := Prod.mk.injEq .. ▸ heq
      simp only [Prod.mk.injEq] at heq
      simp [List.lookup, heq.1, heq.2]
    · have hne : a ≠ k := by
        intro he
        subst he
        exact hnd.1 (List.mem_map.mpr ⟨(a, b), htail, rfl⟩)
      have hbeq : (a == k) = false := beq_eq_false_iff_ne.mpr hne
      simp only [List.lookup, hbeq]
      exact ih hnd.2 htail

theorem mem_of_lookup {β : Type} :
    ∀ {l : List (String × β)} {a : String} {b : β},
      l.lookup a = some b → (a, b) ∈ l := by
  intro l
  induction l with
  | nil => intro a b h; simp [List.lookup] at h
  | cons kv rest ih =>
    intro a b h
    obtain ⟨k, v⟩ := kv
    by_cases he : a = k
    · have hbeq : (a == k) = true := beq_iff_eq.mpr he
      simp only [List.lookup, hbeq, Option.some.injEq] at h
      exact List.mem_cons.mpr (Or.inl (by rw [he, h]))
    · have hbeq : (a == k) = false := beq_eq_false_iff_ne.mpr he
      simp only [List.lookup, hbeq] at h
      exact List.mem_cons.mpr (Or.inr (ih h))

/-! Section: Structure of the decision list (claim C1) -/

theorem selGo_length (inv : Inventory) (b : Budgets) :
    ∀ (l : List Entry) (st : SelSt), (selGo inv b l st).length = l.length := by
  intro l
  induction l with
  | nil => intro st; rfl
  | cons x xs ih => intro st; simp [selGo, ih]

theorem selGo_getElem_snd (inv : Inventory) (b : Budgets) :
    ∀ (l : List Entry) (st : SelSt) (i : Nat) (h : i < l.length)
      (h2 : i < (selGo inv b l st).length),
      ((selGo inv b l st)[i]).2 = ((l[i]).1, (l[i]).2.2) := by
  intro l
  induction l with
  | nil => intro st i h h2; simp at h
  | cons x xs ih =>
    intro st i h h2
    cases i with
    | zero => simp [selGo]
    | succ i' =>
      simp only [selGo, List.getElem_cons_succ]
      exact ih _ i' (by simpa using h) (by simpa [selGo] using h2)

theorem selStep_capped_contains (inv : Inventory) (st : SelSt)
    (dir file : String) (a : Bool) (g : String)
    (h : st.capped_directories.contains g) :
    (selStep inv st dir file a).capped_directories.contains g := by
  cases a <;> simp_all [selStep, List.contains_cons]

/-- Once a group is capped, every later decision for that group is `False`:
the `activate` expression ends in `and dir not in capped_directories` and the
capped set only grows. -/
theorem selGo_capped_all_false (inv : Inventory) (b : Budgets) :
    ∀ (l : List Entry) (st : SelSt) (g : String),
      st.capped_directories.contains g →
      ∀ d ∈ selGo inv b l st, d.2.1 = g → d.1 = false := by
  intro l
  induction l with
  | nil => intro st g _ d hd; simp [selGo] at hd
  | cons x xs ih =>
    intro st g hg d hd hdg
    rcases List.mem_cons.mp hd with heq | htail
    · subst heq
      simp only at hdg
      subst hdg
      have hmem : x.1 ∈ st.capped_directories := by simpa using hg
      unfold activateOf
      simp [hmem]
    · exact ih _ g (selStep_capped_contains inv st x.1 x.2.2 _ g hg) d htail hdg

/-- A `False` decision for a group is followed only by `False` decisions for
that group: at the moment of the rejection the group enters
`capped_directories`. -/
theorem selGo_no_true_after_false (inv : Inventory) (b : Budgets) :
    ∀ (l : List Entry) (st : SelSt) (i j : Nat) (hij : i < j)
      (hj : j < (selGo inv b l st).length),
      ((selGo inv b l st)[i]).1 = false →
      ((selGo inv b l st)[j]).2.1 = ((selGo inv b l st)[i]).2.1 →
      ((selGo inv b l st)[j]).1 = false := by
  intro l
  induction l with
  | nil => intro st i j hij hj; simp [selGo] at hj
  | cons x xs ih =>
    intro st i j hij hj hfalse hsame
    cases i with
    | zero =>
      cases j with
      | zero => omega
      | succ j' =>
        have hfalse' : activateOf inv b st x.1 x.2.2 = false := by
          simpa [selGo] using hfalse
        have hj' : j' < (selGo inv b xs (selStep inv st x.1 x.2.2
            (activateOf inv b st x.1 x.2.2))).length := by
          simpa [selGo] using hj
        have hsame' : ((selGo inv b xs (selStep inv st x.1 x.2.2
            (activateOf inv b st x.1 x.2.2)))[j']).2.1 = x.1 := by
          simpa [selGo] using hsame
        have hcap : (selStep inv st x.1 x.2.2
            (activateOf inv b st x.1 x.2.2)).capped_directories.contains x.1 = true := by
          rw [hfalse']
          simp [selStep, List.contains_cons]
        have := selGo_capped_all_false inv b xs _ x.1 hcap _
          (List.getElem_mem hj') hsame'
        simpa [selGo] using this
    | succ i' =>
      cases j with
      | zero => omega
      | succ j' =>
        have hj' : j' < (selGo inv b xs (selStep inv st x.1 x.2.2
            (activateOf inv b st x.1 x.2.2))).length := by
          simpa [selGo] using hj
        have := ih (selStep inv st x.1 x.2.2 (activateOf inv b st x.1 x.2.2))
          i' j' (by omega) hj' (by simpa [selGo] using hfalse)
          (by simpa [selGo] using hsame)
        simpa [selGo] using this

theorem lookupGroup_keys_nodup {inv : Inventory} (hwf : WFInv inv)
    (g : String) : ((lookupGroup inv g).map Prod.fst).Nodup := by
  rw [lookupGroup]
  cases hlk : inv.lookup g with
  | none => simp
  | some sbf =>
    simp only [Option.getD_some]
    exact hwf.2 (g, sbf) (mem_of_lookup hlk)

theorem rankedFiles_nodup {inv : Inventory} (hwf : WFInv inv) (g : String) :
    (rankedFiles inv g).Nodup :=
  (List.perm_insertionSort numericLe _).symm.nodup (lookupGroup_keys_nodup hwf g)

/-- Each entry of `allEntries` carries the rank of its file: the file is the
entry's index into its group's natural-key-sorted name list. -/
theorem allEntries_char {inv : Inventory} (hwf : WFInv inv) {d : String}
    {k : Nat} {f : String} (he : (d, k, f) ∈ allEntries inv) :
    ∃ h : k < (rankedFiles inv d).length, (rankedFiles inv d)[k] = f := by
  rw [allEntries] at he
  obtain ⟨⟨g, sbf⟩, hmem, he2⟩ := List.mem_flatMap.mp he
  obtain ⟨⟨idx, f'⟩, henum, heq⟩ := List.mem_map.mp he2
  obtain ⟨hlt, hval⟩ := List.mem_enum henum
  simp only [Prod.mk.injEq] at heq
  obtain ⟨hg, hk, hf⟩ := heq
  subst hg hk hf
  have hlook : rankedFiles inv g = sortedNames sbf := by
    rw [rankedFiles, lookupGroup, lookup_of_mem_of_nodup hwf.1 hmem]
    rfl
  rw [hlook]
  exact ⟨hlt, hval.symm⟩

/-- For a well-formed inventory, an entry whose file sits at position `j`
of its group's ranked list has index `j` (files within a group are
distinct). -/
theorem allEntries_rank_eq {inv : Inventory} (hwf : WFInv inv) {d : String}
    {k : Nat} {f : String} (he : (d, k, f) ∈ allEntries inv) {j : Nat}
    (hj : j < (rankedFiles inv d).length)
    (hval : f = (rankedFiles inv d)[j]) : k = j := by
  obtain ⟨hlt, hget⟩ := allEntries_char hwf he
  exact (List.Nodup.getElem_inj_iff (rankedFiles_nodup hwf d)).mp
    (by rw [hget, hval])

theorem ordered_files_pairwise (inv : Inventory) :
    List.Pairwise (keyRel inv) (ordered_files inv) :=
  List.sorted_insertionSort (keyRel inv) (allEntries inv)

theorem ordered_files_perm (inv : Inventory) :
    (ordered_files inv).Perm (allEntries inv) :=
  List.perm_insertionSort (keyRel inv) (allEntries inv)

/-- C1: within each group the activated files form a rank prefix: if the
file at rank `i` of a group is rejected, no file at a later rank `j` of the
same group is activated.  The processing order visits a group's files in
rank order, and a rejection puts the group into `capped_directories`, which
overrides every later condition including `global_minimum`. -/
theorem C1_prefix_within_group (inv : Inventory) (b : Budgets)
    (hwf : WFInv inv) (g : String) (i j : Nat) (hij : i < j)
    (hj : j < (rankedFiles inv g).length)
    (hfalse : (false, g, (rankedFiles inv g)[i]) ∈ select_files inv b) :
    (true, g, (rankedFiles inv g)[j]) ∉ select_files inv b := by
  intro htrue
  rw [select_files] at hfalse htrue
  obtain ⟨nF, hnF, hgetF⟩ := List.mem_iff_getElem.mp hfalse
  obtain ⟨nT, hnT, hgetT⟩ := List.mem_iff_getElem.mp htrue
  rcases Nat.lt_trichotomy nF nT with hlt | heq | hgt
  · -- a rejection for the group precedes the activation: impossible
    have hcontra := selGo_no_true_after_false inv b (ordered_files inv) initSt
      nF nT hlt hnT (by rw [hgetF]) (by rw [hgetF, hgetT])
    rw [hgetT] at hcontra
    simp at hcontra
  · subst heq
    have hcontra := hgetF.symm.trans hgetT
    simp at hcontra
  · -- the activation precedes the rejection, yet rank j > rank i:
    -- contradicts the rank-ascending processing order
    have hlenT : nT < (ordered_files inv).length := by
      rw [← selGo_length inv b (ordered_files inv) initSt]
      exact hnT
    have hlenF : nF < (ordered_files inv).length := by
      rw [← selGo_length inv b (ordered_files inv) initSt]
      exact hnF
    have hsndT := selGo_getElem_snd inv b (ordered_files inv) initSt nT hlenT hnT
    have hsndF := selGo_getElem_snd inv b (ordered_files inv) initSt nF hlenF hnF
    rw [hgetT] at hsndT
    rw [hgetF] at hsndF
    have hdirT : ((ordered_files inv)[nT]).1 = g :=
      (congrArg Prod.fst hsndT).symm
    have hfileT : ((ordered_files inv)[nT]).2.2 =
        (rankedFiles inv g)[j] := (congrArg Prod.snd hsndT).symm
    have hdirF : ((ordered_files inv)[nF]).1 = g :=
      (congrArg Prod.fst hsndF).symm
    have hfileF : ((ordered_files inv)[nF]).2.2 =
        (rankedFiles inv g)[i] := (congrArg Prod.snd hsndF).symm
    have hmemT : (ordered_files inv)[nT] ∈ allEntries inv :=
      (ordered_files_perm inv).subset (List.getElem_mem hlenT)
    have hmemF : (ordered_files inv)[nF] ∈ allEntries inv :=
      (ordered_files_perm inv).subset (List.getElem_mem hlenF)
    have hTtriple : (ordered_files inv)[nT] =
        (g, ((ordered_files inv)[nT]).2.1,
          (rankedFiles inv g)[j]) := by
      rw [← hfileT, ← hdirT]
    have hFtriple : (ordered_files inv)[nF] =
        (g, ((ordered_files inv)[nF]).2.1,
          (rankedFiles inv g)[i]) := by
      rw [← hfileF, ← hdirF]
    have hrankT : ((ordered_files inv)[nT]).2.1 = j :=
      allEntries_rank_eq hwf (hTtriple ▸ hmemT) hj rfl
    have hrankF : ((ordered_files inv)[nF]).2.1 = i :=
      allEntries_rank_eq hwf (hFtriple ▸ hmemF) (by omega) rfl
    have hrel : keyRel inv ((ordered_files inv)[nT])
        ((ordered_files inv)[nF]) := by
      have hpw := ordered_files_pairwise inv
      rw [List.pairwise_iff_getElem] at hpw
      exact hpw nT nF hlenT hlenF hgt
    rw [keyRel, pkey, pkey, Prod.Lex.le_iff] at hrel
    rcases hrel with h | h
    · simp only [hrankT, hrankF] at h
      omega
    · have := h.1
      simp only [hrankT, hrankF] at this
      omega

theorem C1_prefix_within_group_witness :
    WFInv [("a", [("f1", 1), ("f2", 1)])] ∧
      (0 : Nat) < 1 ∧ 1 < (rankedFiles [("a", [("f1", 1), ("f2", 1)])] "a").length ∧
      (false, "a", "f1") ∈ select_files [("a", [("f1", 1), ("f2", 1)])]
        ⟨Limit.fin 0, Limit.inf, Limit.inf, 0⟩ ∧
      (true, "a", "f2") ∉ select_files [("a", [("f1", 1), ("f2", 1)])]
        ⟨Limit.fin 0, Limit.inf, Limit.inf, 0⟩ := by
  refine ⟨by decide, by decide, by decide, by decide, ?_⟩
  have h := C1_prefix_within_group [("a", [("f1", 1), ("f2", 1)])]
    ⟨Limit.fin 0, Limit.inf, Limit.inf, 0⟩ (by decide) "a" 0 1 (by decide)
    (by decide) (by decide)
  have e : (rankedFiles [("a", [("f1", 1), ("f2", 1)])] "a").get ⟨1, by decide⟩ =
      "f2" := by decide
  rw [← e]
  exact h

/-! Section: Claim C5, the processing order -/

/-- Modelled from the claim's wording: the strict processing order over
`(group, rank, relative_path)` triples — rank ascending; for equal ranks,
number of files in the group descending; for equal group sizes, relative
path ascending by natural key; finally group name ascending (string
comparison by code point). -/
def specLt (inv : Inventory) (x y : Entry) : Prop :=
  x.2.1 < y.2.1 ∨
    (x.2.1 = y.2.1 ∧
      ((lookupGroup inv y.1).length < (lookupGroup inv x.1).length ∨
        ((lookupGroup inv x.1).length = (lookupGroup inv y.1).length ∧
          (nsk x.2.2 < nsk y.2.2 ∨
            (nsk x.2.2 = nsk y.2.2 ∧ x.1.data < y.1.data)))))

instance (inv : Inventory) : DecidableRel (specLt inv) := fun x y => by
  unfold specLt
  infer_instance

theorem pkey_lt_iff_specLt (inv : Inventory) (x y : Entry) :
    pkey inv x < pkey inv y ↔ specLt inv x y := by
  rw [pkey, pkey, specLt]
  simp only [Prod.Lex.lt_iff, toLex_inj, Prod.mk.injEq, neg_lt_neg_iff,
    neg_inj, Nat.cast_lt, Nat.cast_inj]

theorem allEntries_nodup {inv : Inventory} (hwf : WFInv inv) :
    (allEntries inv).Nodup := by
  rw [allEntries, List.nodup_flatMap]
  constructor
  · intro g _
    apply List.Nodup.map
    · intro p q hpq
      simpa using hpq
    · exact List.Nodup.of_map Prod.fst (List.nodup_enum_map_fst (sortedNames g.2))
  · have hnd := (List.pairwise_map (f := Prod.fst)
      (R := fun a b : String => a ≠ b)).mp hwf.1
    apply hnd.imp
    intro a b hab
    intro e he1 he2
    obtain ⟨p, -, hp⟩ := List.mem_map.mp he1
    obtain ⟨q, -, hq⟩ := List.mem_map.mp he2
    have h1 : e.1 = a.1 := by rw [← hp]
    have h2 : e.1 = b.1 := by rw [← hq]
    exact hab (h1 ▸ h2)

/-- C5: `select_files` processes all `(group, rank, relative_path)` triples
in exactly the claimed order: the processing list is a permutation of all
triples and strictly increasing for the claimed order (so the order is total
over the triples and uniquely determines the list). -/
theorem C5_processing_order (inv : Inventory) (hwf : WFInv inv) :
    (ordered_files inv).Perm (allEntries inv) ∧
      List.Pairwise (specLt inv) (ordered_files inv) := by
  refine ⟨ordered_files_perm inv, ?_⟩
  have hnd : (ordered_files inv).Nodup :=
    (ordered_files_perm inv).symm.nodup (allEntries_nodup hwf)
  have hpw := (ordered_files_pairwise inv).and hnd
  apply hpw.imp
  intro a b hab
  obtain ⟨hle, hne⟩ := hab
  have hlt : pkey inv a < pkey inv b :=
    lt_of_le_of_ne hle (fun he => hne (pkey_inj he))
  exact (pkey_lt_iff_specLt inv a b).mp hlt

theorem C5_processing_order_witness :
    WFInv [("b", [("x", 1)]), ("a", [("f2", 1), ("f1", 1)])] ∧
      ((ordered_files [("b", [("x", 1)]), ("a", [("f2", 1), ("f1", 1)])]).Perm
        (allEntries [("b", [("x", 1)]), ("a", [("f2", 1), ("f1", 1)])]) ∧
      List.Pairwise (specLt [("b", [("x", 1)]), ("a", [("f2", 1), ("f1", 1)])])
        (ordered_files [("b", [("x", 1)]), ("a", [("f2", 1), ("f1", 1)])])) :=
  ⟨by decide, C5_processing_order
    [("b", [("x", 1)]), ("a", [("f2", 1), ("f1", 1)])] (by decide)⟩

/-! Section: Filesystem model and the reconciler of `main`

The reconciler touches files only through `os.path.exists`, `os.rename`,
`os.unlink` and `shutil.rmtree` on the per-file paths
`os.path.join(active_dir, dir, file)` / `os.path.join(offload_dir, dir, file)`.
The model keeps one record per (group, relative path) holding the copy sizes
and two existence flags; distinct records stand for distinct paths.  The
empty-parent pruning performed after a removal only ever deletes directories
all of whose entries are hidden; hidden files are invisible to the inventory
walk, so pruning cannot change any modelled file and is left out of the
location model (its own behaviour is analysed separately for claim C8). -/

/-- One file known to either tree: its group (top-level directory name),
relative path, the byte size of the copy in each tree (meaningful when the
matching flag is set), and whether a copy exists in the active / offload
tree. -/
structure FileNode where
  dir : String
  file : String
  activeSize : Nat
  offloadSize : Nat
  inActive : Bool
  inOffload : Bool
deriving DecidableEq

/-- The state of the two trees: one record per (group, relative path). -/
abbrev Fs := List FileNode

/-- The identity of a record. -/
def FileNode.key (n : FileNode) : String × String := (n.dir, n.file)

/-- Well-formedness of a filesystem state: records have distinct
(group, relative path) keys and every record's file exists in at least one
tree (a record stands for a file found on disk). -/
def WFFs (st : Fs) : Prop :=
  (st.map FileNode.key).Nodup ∧
    ∀ n ∈ st, n.inActive = true ∨ n.inOffload = true

instance : DecidablePred WFFs := fun _ =>
  inferInstanceAs (Decidable (_ ∧ _))

/-- The size `get_size` reads during the scan: the offload tree is scanned
second, so for a file present in both trees the offload copy's size
overwrites the active copy's. -/
def scanSize (n : FileNode) : Nat :=
  if n.inOffload then n.offloadSize else n.activeSize

/-- The scan result for one key: the size recorded for an existing file,
`none` for an unknown or nonexistent one. -/
def scanOf (st : Fs) (g f : String) : Option Nat :=
  match st.find? (fun n => n.dir = g && n.file = f &&
      (n.inActive || n.inOffload)) with
  | some n => some (scanSize n)
  | none => none

/-- The statement `size_by_file_by_dir[j][k] = get_size(...)` on the inner
dict: append a new file or overwrite the size of a known one (dict update
keeps insertion order). -/
def addFile : List (String × Nat) → String → Nat → List (String × Nat)
  | [], f, s => [(f, s)]
  | (k, v) :: rest, f, s =>
    if k = f then (k, s) :: rest else (k, v) :: addFile rest f s

/-- The same statement on the outer `defaultdict(dict)`. -/
def addToGroup : Inventory → String → String → Nat → Inventory
  | [], d, f, s => [(d, [(f, s)])]
  | (g, files) :: rest, d, f, s =>
    if g = d then (g, addFile files f s) :: rest
    else (g, files) :: addToGroup rest d f s

/-- One tree's scan (`for j in iter_child_dirs(i): for k in iter_files(...)`),
enumerating the state's records in order and recording those present in the
tree selected by `flag`. -/
def collectTree (flag : FileNode → Bool) (size : FileNode → Nat) :
    Fs → Inventory → Inventory
  | [], inv => inv
  | n :: rest, inv =>
    collectTree flag size rest
      (if flag n then addToGroup inv n.dir n.file (size n) else inv)

/-- The function `collect_files_with_sizes`: scan the active tree, then the
offload tree (`for i in [active_dir, offload_dir]`). -/
def collect_files_with_sizes (st : Fs) : Inventory :=
  collectTree (fun n => n.inOffload) (fun n => n.offloadSize) st
    (collectTree (fun n => n.inActive) (fun n => n.activeSize) st [])

/-- A visible filesystem action of the reconciler (log lines `Removing:`,
`Activating:` and `Offloading:`). -/
inductive RAction where
  | removeOffload (dir file : String)
  | renameToActive (dir file : String)
  | renameToOffload (dir file : String)
deriving DecidableEq

/-- Truth of `os.path.exists(offload_path)`. -/
def existsOffload (st : Fs) (dir file : String) : Bool :=
  st.any (fun n => n.dir = dir && n.file = file && n.inOffload)

/-- Truth of `os.path.exists(active_path)`. -/
def existsActive (st : Fs) (dir file : String) : Bool :=
  st.any (fun n => n.dir = dir && n.file = file && n.inActive)

/-- Update the record with the given key, leaving every other record
untouched. -/
def updNode (dir file : String) (f : FileNode → FileNode) (st : Fs) : Fs :=
  st.map (fun n => if n.dir = dir ∧ n.file = file then f n else n)

/-- The call `remove(offload_path, offload_dir)`: the offload copy is
unlinked. -/
def removeOffloadCopy (dir file : String) (st : Fs) : Fs :=
  updNode dir file (fun n => { n with inOffload := false }) st

/-- The call `rename(offload_path, active_path)`. -/
def renameOffloadToActive (dir file : String) (st : Fs) : Fs :=
  updNode dir file (fun n =>
    { n with inActive := true, activeSize := n.offloadSize,
             inOffload := false }) st

/-- The call `rename(active_path, offload_path)`. -/
def renameActiveToOffload (dir file : String) (st : Fs) : Fs :=
  updNode dir file (fun n =>
    { n with inOffload := true, offloadSize := n.activeSize,
             inActive := false }) st

/-- One iteration of the reconciliation loop of `main` (source lines
244-265), returning the new state and the performed actions. -/
def applyDecision (st : Fs) (d : Bool × String × String) : Fs × List RAction :=
  match d with
  | (activate, dir, file) =>
    if activate then
      if existsOffload st dir file then
        if existsActive st dir file then
          (removeOffloadCopy dir file st, [.removeOffload dir file])
        else
          (renameOffloadToActive dir file st, [.renameToActive dir file])
      else (st, [])
    else
      if existsActive st dir file then
        if existsOffload st dir file then
          (renameActiveToOffload dir file (removeOffloadCopy dir file st),
            [.removeOffload dir file, .renameToOffload dir file])
        else
          (renameActiveToOffload dir file st, [.renameToOffload dir file])
      else (st, [])

/-- The whole reconciliation loop over the decision list. -/
def reconcile (st : Fs) : List (Bool × String × String) → Fs × List RAction
  | [] => (st, [])
  | d :: ds =>
    let r := applyDecision st d
    let rest := reconcile r.1 ds
    (rest.1, r.2 ++ rest.2)

/-- One full pass of `main`: inventory collection, selection,
reconciliation. -/
def runPass (st : Fs) (b : Budgets) : Fs × List RAction :=
  reconcile st (select_files (collect_files_with_sizes st) b)

/-! Section: What the collector records for each key -/

/-- The nested dict lookup `size_by_file_by_dir[g][f]`, as an `Option`. -/
def invLookup (inv : Inventory) (g f : String) : Option Nat :=
  (lookupGroup inv g).lookup f

theorem lookupGroup_cons (g0 : String) (files : List (String × Nat))
    (rest : Inventory) (g : String) :
    lookupGroup ((g0, files) :: rest) g =
      if g = g0 then files else lookupGroup rest g := by
  by_cases h : g = g0
  · have hbeq : (g == g0) = true := beq_iff_eq.mpr h
    simp [lookupGroup, List.lookup, hbeq, h]
  · have hbeq : (g == g0) = false := beq_eq_false_iff_ne.mpr h
    simp [lookupGroup, List.lookup, hbeq, h]

theorem addFile_lookup_self (l : List (String × Nat)) (f : String) (s : Nat) :
    (addFile l f s).lookup f = some s := by
  induction l with
  | nil => simp [addFile, List.lookup]
  | cons kv rest ih =>
    obtain ⟨k, v⟩ := kv
    by_cases h : k = f
    · simp [addFile, h, List.lookup]
    · have hbeq : (f == k) = false := beq_eq_false_iff_ne.mpr (Ne.symm h)
      simp [addFile, h, List.lookup, hbeq, ih]

theorem addFile_lookup_other (l : List (String × Nat)) (f f' : String)
    (s : Nat) (h : f' ≠ f) :
    (addFile l f s).lookup f' = l.lookup f' := by
  induction l with
  | nil =>
    have hbeq : (f' == f) = false := beq_eq_false_iff_ne.mpr h
    simp [addFile, List.lookup, hbeq]
  | cons kv rest ih =>
    obtain ⟨k, v⟩ := kv
    by_cases hk : k = f
    · subst hk
      have hbeq : (f' == k) = false := beq_eq_false_iff_ne.mpr h
      simp [addFile, List.lookup, hbeq]
    · by_cases hk' : f' = k
      · have hbeq : (f' == k) = true := beq_iff_eq.mpr hk'
        simp [addFile, hk, List.lookup, hbeq]
      · have hbeq : (f' == k) = false := beq_eq_false_iff_ne.mpr hk'
        simp [addFile, hk, List.lookup, hbeq, ih]

theorem invLookup_addToGroup (inv : Inventory) (d f : String) (s : Nat)
    (g f' : String) :
    invLookup (addToGroup inv d f s) g f' =
      if g = d ∧ f' = f then some s else invLookup inv g f' := by
  induction inv with
  | nil =>
    by_cases hg : g = d
    · subst hg
      by_cases hf : f' = f
      · subst hf
        simp [invLookup, addToGroup, lookupGroup_cons, addFile_lookup_self,
          lookupGroup]
      · simp [invLookup, addToGroup, lookupGroup_cons, hf, lookupGroup,
          List.lookup, beq_eq_false_iff_ne.mpr hf]
    · show invLookup [(d, [(f, s)])] g f' = _
      rw [invLookup, lookupGroup_cons]
      simp [hg, invLookup, lookupGroup, List.lookup]
  | cons e rest ih =>
    obtain ⟨g0, files⟩ := e
    by_cases hg0 : g0 = d
    · subst hg0
      by_cases hg : g = g0
      · subst hg
        by_cases hf : f' = f
        · subst hf
          simp [invLookup, addToGroup, lookupGroup_cons, addFile_lookup_self]
        · simp [invLookup, addToGroup, lookupGroup_cons, hf,
            addFile_lookup_other _ _ _ _ hf]
      · simp [invLookup, addToGroup, lookupGroup_cons, hg]
    · by_cases hg : g = g0
      · subst hg
        have : ¬(g = d) := by
          intro he
          exact hg0 he
        simp [invLookup, addToGroup, hg0, lookupGroup_cons, this]
      · simp only [invLookup, addToGroup, hg0, if_false, lookupGroup_cons, hg]
        exact ih

theorem find?_eq_none_of_no_key {p : FileNode → Bool} {st : Fs}
    {g f : String} (hkey : ∀ m, p m = true → m.dir = g ∧ m.file = f)
    (hno : ∀ m ∈ st, ¬(m.dir = g ∧ m.file = f)) : st.find? p = none := by
  rw [List.find?_eq_none]
  intro m hm hp
  exact hno m hm (hkey m hp)

theorem find?_eq_some_of_unique {p : FileNode → Bool} {st : Fs} {n : FileNode}
    (hnd : (st.map FileNode.key).Nodup) (hn : n ∈ st) (hp : p n = true)
    (hkey : ∀ m, p m = true → m.key = n.key) : st.find? p = some n := by
  induction st with
  | nil => simp at hn
  | cons m rest ih =>
    simp only [List.map_cons, List.nodup_cons] at hnd
    by_cases hm : p m
    · have hmn : m = n := by
        rcases List.mem_cons.mp hn with h | h
        · exact h.symm
        · exfalso
          apply hnd.1
          rw [hkey m hm]
          exact List.mem_map.mpr ⟨n, h, rfl⟩
      rw [List.find?_cons_of_pos _ hm, hmn]
    · have hn' : n ∈ rest := by
        rcases List.mem_cons.mp hn with h | h
        · exact absurd (h ▸ hp) hm
        · exact h
      rw [List.find?_cons_of_neg _ hm]
      exact ih hnd.2 hn'

theorem collectTree_invLookup (flag : FileNode → Bool) (size : FileNode → Nat) :
    ∀ (st : Fs) (inv : Inventory) (g f : String),
      (st.map FileNode.key).Nodup →
      invLookup (collectTree flag size st inv) g f =
        (match st.find? (fun n => n.dir = g && n.file = f && flag n) with
         | some n => some (size n)
         | none => invLookup inv g f) := by
  intro st
  induction st with
  | nil => intro inv g f _; simp [collectTree]
  | cons n rest ih =>
    intro inv g f hnd
    simp only [List.map_cons, List.nodup_cons] at hnd
    simp only [collectTree]
    rw [ih _ _ _ hnd.2]
    by_cases hkey : n.dir = g ∧ n.file = f
    · have hrest_none : rest.find?
          (fun m => m.dir = g && m.file = f && flag m) = none := by
        apply find?_eq_none_of_no_key (g := g) (f := f)
        · intro m hm
          simp only [Bool.and_eq_true, decide_eq_true_eq] at hm
          exact hm.1
        · intro m hm hcon
          apply hnd.1
          have hk : m.key = n.key := by
            rw [FileNode.key, FileNode.key, hcon.1, hcon.2, hkey.1, hkey.2]
          rw [← hk]
          exact List.mem_map.mpr ⟨m, hm, rfl⟩
      rw [hrest_none]
      by_cases hflag : flag n
      · have hhead : (n :: rest).find?
            (fun m => m.dir = g && m.file = f && flag m) = some n :=
          List.find?_cons_of_pos rest (by simp [hkey.1, hkey.2, hflag])
        rw [hhead]
        simp only [hflag, if_true]
        rw [invLookup_addToGroup]
        simp [hkey.1, hkey.2]
      · have hhead : (n :: rest).find?
            (fun m => m.dir = g && m.file = f && flag m) =
            rest.find? (fun m => m.dir = g && m.file = f && flag m) :=
          List.find?_cons_of_neg rest (by simp [hflag])
        rw [hhead, hrest_none]
        simp [hflag]
    · have hhead : (n :: rest).find?
          (fun m => m.dir = g && m.file = f && flag m) =
          rest.find? (fun m => m.dir = g && m.file = f && flag m) := by
        apply List.find?_cons_of_neg rest
        simp only [Bool.and_eq_true, decide_eq_true_eq]
        intro hcon
        exact hkey hcon.1
      rw [hhead]
      by_cases hflag : flag n
      · simp only [hflag, if_true]
        cases hfind : rest.find?
            (fun m => m.dir = g && m.file = f && flag m) with
        | some m => rfl
        | none =>
          rw [invLookup_addToGroup]
          have hcon : ¬(g = n.dir ∧ f = n.file) := by
            intro ⟨h1, h2⟩
            exact hkey ⟨h1.symm, h2.symm⟩
          simp [hcon]
      · simp [hflag]

/-- What the collector records for each key: the scan-time size of an
existing file, nothing for an unknown key. -/
theorem invLookup_collect (st : Fs) (hnd : (st.map FileNode.key).Nodup)
    (g f : String) :
    invLookup (collect_files_with_sizes st) g f = scanOf st g f := by
  rw [collect_files_with_sizes, collectTree_invLookup _ _ _ _ _ _ hnd,
    collectTree_invLookup _ _ _ _ _ _ hnd, scanOf]
  cases hex : st.find? (fun n => n.dir = g && n.file = f &&
      (n.inActive || n.inOffload)) with
  | some n =>
    have hmem := List.mem_of_find?_eq_some hex
    have hsat := List.find?_some hex
    simp only [Bool.and_eq_true, Bool.or_eq_true, decide_eq_true_eq] at hsat
    obtain ⟨⟨hd, hf⟩, hex'⟩ := hsat
    by_cases hoff : n.inOffload
    · have : st.find? (fun m => m.dir = g && m.file = f && m.inOffload) =
          some n := by
        apply find?_eq_some_of_unique hnd hmem (by simp [hd, hf, hoff])
        intro m hm
        simp only [Bool.and_eq_true, decide_eq_true_eq] at hm
        rw [FileNode.key, FileNode.key, hd, hf, hm.1.1, hm.1.2]
      rw [this]
      simp [scanSize, hoff]
    · have hact : n.inActive = true := by
        rcases hex' with h | h
        · exact h
        · exact absurd h hoff
      have hoffnone : st.find?
          (fun m => m.dir = g && m.file = f && m.inOffload) = none := by
        rw [List.find?_eq_none]
        intro m hm hp
        simp only [Bool.and_eq_true, decide_eq_true_eq] at hp
        have hkey : m.key = n.key := by
          rw [FileNode.key, FileNode.key, hd, hf, hp.1.1, hp.1.2]
        have : m = n := by
          obtain ⟨i, hi, hieq⟩ := List.mem_iff_getElem.mp hm
          obtain ⟨j, hj, hjeq⟩ := List.mem_iff_getElem.mp hmem
          have hij : i = j := by
            have hbi : i < (st.map FileNode.key).length := by simpa using hi
            have hbj : j < (st.map FileNode.key).length := by simpa using hj
            have hiff : (st.map FileNode.key)[i] = (st.map FileNode.key)[j] ↔
                i = j := List.Nodup.getElem_inj_iff hnd
            apply hiff.mp
            simp only [List.getElem_map]
            rw [hieq, hjeq, hkey]
          subst hij
          exact hieq.symm.trans hjeq
        rw [this] at hp
        exact hoff hp.2
      rw [hoffnone]
      have : st.find? (fun m => m.dir = g && m.file = f && m.inActive) =
          some n := by
        apply find?_eq_some_of_unique hnd hmem (by simp [hd, hf, hact])
        intro m hm
        simp only [Bool.and_eq_true, decide_eq_true_eq] at hm
        rw [FileNode.key, FileNode.key, hd, hf, hm.1.1, hm.1.2]
      rw [this]
      simp [scanSize, hoff]
  | none =>
    have hno : ∀ m ∈ st, ¬(m.dir = g ∧ m.file = f ∧
        (m.inActive = true ∨ m.inOffload = true)) := by
      intro m hm hcon
      have := List.find?_eq_none.mp hex m hm
      simp only [Bool.and_eq_true, Bool.or_eq_true, decide_eq_true_eq] at this
      exact this ⟨⟨hcon.1, hcon.2.1⟩, hcon.2.2⟩
    have h1 : st.find? (fun m => m.dir = g && m.file = f && m.inOffload) =
        none := by
      rw [List.find?_eq_none]
      intro m hm hp
      simp only [Bool.and_eq_true, decide_eq_true_eq] at hp
      exact hno m hm ⟨hp.1.1, hp.1.2, Or.inr hp.2⟩
    have h2 : st.find? (fun m => m.dir = g && m.file = f && m.inActive) =
        none := by
      rw [List.find?_eq_none]
      intro m hm hp
      simp only [Bool.and_eq_true, decide_eq_true_eq] at hp
      exact hno m hm ⟨hp.1.1, hp.1.2, Or.inl hp.2⟩
    rw [h1, h2]
    simp [invLookup, lookupGroup, List.lookup]

/-! Section: Well-formedness of collected inventories -/

/-- Truth of: every group of the inventory holds at least one file (the
collector only creates a group when recording a file into it). -/
def noEmptyGroups (inv : Inventory) : Prop := ∀ e ∈ inv, e.2 ≠ []

theorem addFile_keys (l : List (String × Nat)) (f : String) (s : Nat) :
    (addFile l f s).map Prod.fst =
      if f ∈ l.map Prod.fst then l.map Prod.fst
      else l.map Prod.fst ++ [f] := by
  induction l with
  | nil => simp [addFile]
  | cons kv rest ih =>
    obtain ⟨k, v⟩ := kv
    by_cases h : k = f
    · subst h
      simp [addFile]
    · simp only [addFile, h, if_false, List.map_cons, ih, List.mem_cons]
      have hne : ¬f = k := fun he => h he.symm
      by_cases hm : f ∈ rest.map Prod.fst
      · simp [hm, hne]
      · simp [hm, hne]

theorem addFile_keys_nodup {l : List (String × Nat)} {f : String} {s : Nat}
    (h : (l.map Prod.fst).Nodup) : ((addFile l f s).map Prod.fst).Nodup := by
  rw [addFile_keys]
  by_cases hm : f ∈ l.map Prod.fst
  · simpa [hm] using h
  · simp [hm, List.nodup_append, h]

theorem addFile_ne_nil (l : List (String × Nat)) (f : String) (s : Nat) :
    addFile l f s ≠ [] := by
  cases l with
  | nil => simp [addFile]
  | cons kv rest =>
    obtain ⟨k, v⟩ := kv
    by_cases h : k = f <;> simp [addFile, h]

theorem addToGroup_keys (inv : Inventory) (d f : String) (s : Nat) :
    (addToGroup inv d f s).map Prod.fst =
      if d ∈ inv.map Prod.fst then inv.map Prod.fst
      else inv.map Prod.fst ++ [d] := by
  induction inv with
  | nil => simp [addToGroup]
  | cons e rest ih =>
    obtain ⟨g, files⟩ := e
    by_cases h : g = d
    · subst h
      simp [addToGroup]
    · simp only [addToGroup, h, if_false, List.map_cons, ih, List.mem_cons]
      have hne : ¬d = g := fun he => h he.symm
      by_cases hm : d ∈ rest.map Prod.fst
      · simp [hm, hne]
      · simp [hm, hne]

theorem addToGroup_cases {inv : Inventory} {d f : String} {s : Nat} {e} :
    e ∈ addToGroup inv d f s →
      e ∈ inv ∨ (∃ files, (e.1, files) ∈ inv ∧ e.2 = addFile files f s) ∨
        e = (d, [(f, s)]) := by
  induction inv with
  | nil =>
    intro he
    simp only [addToGroup, List.mem_singleton] at he
    exact Or.inr (Or.inr he)
  | cons e0 rest ih =>
    intro he
    obtain ⟨g, files⟩ := e0
    by_cases h : g = d
    · subst h
      simp only [addToGroup, if_true, List.mem_cons] at he
      rcases he with he | he
      · subst he
        exact Or.inr (Or.inl ⟨files, List.mem_cons_self _ _, rfl⟩)
      · exact Or.inl (List.mem_cons_of_mem _ he)
    · simp only [addToGroup, h, if_false, List.mem_cons] at he
      rcases he with he | he
      · exact Or.inl (he ▸ List.mem_cons_self _ _)
      · rcases ih he with h1 | h2 | h3
        · exact Or.inl (List.mem_cons_of_mem _ h1)
        · obtain ⟨fl, hfl, hfl2⟩ := h2
          exact Or.inr (Or.inl ⟨fl, List.mem_cons_of_mem _ hfl, hfl2⟩)
        · exact Or.inr (Or.inr h3)

theorem addToGroup_wf {inv : Inventory} (h1 : WFInv inv)
    (h2 : noEmptyGroups inv) (d f : String) (s : Nat) :
    WFInv (addToGroup inv d f s) ∧ noEmptyGroups (addToGroup inv d f s) := by
  refine ⟨⟨?_, ?_⟩, ?_⟩
  · rw [addToGroup_keys]
    by_cases hm : d ∈ inv.map Prod.fst
    · simpa [hm] using h1.1
    · simp [hm, List.nodup_append, h1.1]
  · intro e he
    rcases addToGroup_cases he with h | h | h
    · exact h1.2 e h
    · obtain ⟨files, hfl, hfl2⟩ := h
      rw [hfl2]
      exact addFile_keys_nodup (h1.2 (e.1, files) hfl)
    · subst h
      simp
  · intro e he
    rcases addToGroup_cases he with h | h | h
    · exact h2 e h
    · obtain ⟨files, -, hfl2⟩ := h
      rw [hfl2]
      exact addFile_ne_nil files f s
    · subst h
      simp

theorem collectTree_wf (flag : FileNode → Bool) (size : FileNode → Nat) :
    ∀ (st : Fs) (inv : Inventory), WFInv inv → noEmptyGroups inv →
      WFInv (collectTree flag size st inv) ∧
        noEmptyGroups (collectTree flag size st inv) := by
  intro st
  induction st with
  | nil => intro inv h1 h2; exact ⟨h1, h2⟩
  | cons n rest ih =>
    intro inv h1 h2
    simp only [collectTree]
    by_cases hflag : flag n
    · simp only [hflag, if_true]
      obtain ⟨h1', h2'⟩ := addToGroup_wf h1 h2 n.dir n.file (size n)
      exact ih _ h1' h2'
    · simp only [hflag, if_false]
      exact ih _ h1 h2

theorem collect_wf (st : Fs) :
    WFInv (collect_files_with_sizes st) ∧
      noEmptyGroups (collect_files_with_sizes st) := by
  rw [collect_files_with_sizes]
  have base : WFInv ([] : Inventory) ∧ noEmptyGroups ([] : Inventory) := by
    constructor
    · exact ⟨List.nodup_nil, by intro g hg; simp at hg⟩
    · intro e he; simp at he
  obtain ⟨h1, h2⟩ := collectTree_wf (fun n => n.inActive)
    (fun n => n.activeSize) st [] base.1 base.2
  exact collectTree_wf _ _ st _ h1 h2

/-! Section: The selection depends on the inventory only as a finite map

Selection reads the inventory through `size_by_file_by_dir[dir]`,
`size_by_file_by_dir[dir][file]` and `len(size_by_file_by_dir[dir])`, and the
natural key is injective, so the ties broken by dict insertion order cannot
occur: two well-formed inventories recording the same sizes for the same
keys produce identical decision lists. -/

theorem perm_of_nodup_keys_of_lookup_eq {l₁ l₂ : List (String × Nat)}
    (h₁ : (l₁.map Prod.fst).Nodup) (h₂ : (l₂.map Prod.fst).Nodup)
    (h : ∀ f, l₁.lookup f = l₂.lookup f) : l₁.Perm l₂ := by
  have hn₁ : l₁.Nodup := List.Nodup.of_map _ h₁
  have hn₂ : l₂.Nodup := List.Nodup.of_map _ h₂
  apply List.Subperm.antisymm
  · apply List.subperm_of_subset hn₁
    intro x hx
    obtain ⟨f, s⟩ := x
    exact mem_of_lookup ((h f) ▸ lookup_of_mem_of_nodup h₁ hx)
  · apply List.subperm_of_subset hn₂
    intro x hx
    obtain ⟨f, s⟩ := x
    exact mem_of_lookup ((h f).symm ▸ lookup_of_mem_of_nodup h₂ hx)

theorem lookupGroup_perm_of_invLookup_eq {inv₁ inv₂ : Inventory}
    (hw₁ : WFInv inv₁) (hw₂ : WFInv inv₂)
    (h : ∀ g f, invLookup inv₁ g f = invLookup inv₂ g f) (g : String) :
    (lookupGroup inv₁ g).Perm (lookupGroup inv₂ g) :=
  perm_of_nodup_keys_of_lookup_eq (lookupGroup_keys_nodup hw₁ g)
    (lookupGroup_keys_nodup hw₂ g) (fun f => h g f)

instance : IsTotal String numericLe :=
  ⟨fun a b => le_total (nsk a) (nsk b)⟩

instance : IsTrans String numericLe :=
  ⟨fun _ _ _ h₁ h₂ => le_trans h₁ h₂⟩

theorem sortedNames_eq_of_perm {l₁ l₂ : List (String × Nat)}
    (h : l₁.Perm l₂) : sortedNames l₁ = sortedNames l₂ := by
  apply List.eq_of_perm_of_sorted (r := numericLe)
  · exact (List.perm_insertionSort _ _).trans
      ((h.map Prod.fst).trans (List.perm_insertionSort _ _).symm)
  · exact List.sorted_insertionSort _ _
  · exact List.sorted_insertionSort _ _

theorem lookup_eq_none_of_not_mem {β : Type} {l : List (String × β)}
    {a : String} (h : a ∉ l.map Prod.fst) : l.lookup a = none := by
  cases hl : l.lookup a with
  | none => rfl
  | some b => exact absurd (List.mem_map.mpr ⟨(a, b), mem_of_lookup hl, rfl⟩) h

theorem groups_mem_iff {inv : Inventory} (hw : WFInv inv)
    (hne : noEmptyGroups inv) (g : String) :
    g ∈ inv.map Prod.fst ↔ ∃ f s, invLookup inv g f = some s := by
  constructor
  · intro hm
    obtain ⟨e, hmem, he⟩ := List.mem_map.mp hm
    obtain ⟨g', files⟩ := e
    simp only at he
    have hlook : inv.lookup g = some files := by
      rw [← he]
      exact lookup_of_mem_of_nodup hw.1 hmem
    cases hfl : files with
    | nil => exact absurd hfl (hne (g', files) hmem)
    | cons fs rest =>
      obtain ⟨f, s⟩ := fs
      refine ⟨f, s, ?_⟩
      rw [invLookup, lookupGroup, hlook, Option.getD_some, hfl]
      simp [List.lookup]
  · rintro ⟨f, s, hl⟩
    by_contra hm
    rw [invLookup, lookupGroup, lookup_eq_none_of_not_mem hm] at hl
    simp [List.lookup] at hl

theorem groups_perm {inv₁ inv₂ : Inventory} (hw₁ : WFInv inv₁)
    (hw₂ : WFInv inv₂) (hne₁ : noEmptyGroups inv₁) (hne₂ : noEmptyGroups inv₂)
    (h : ∀ g f, invLookup inv₁ g f = invLookup inv₂ g f) :
    (inv₁.map Prod.fst).Perm (inv₂.map Prod.fst) := by
  apply List.Subperm.antisymm
  · apply List.subperm_of_subset hw₁.1
    intro g hg
    rw [groups_mem_iff hw₂ hne₂]
    obtain ⟨f, s, hl⟩ := (groups_mem_iff hw₁ hne₁ g).mp hg
    exact ⟨f, s, (h g f) ▸ hl⟩
  · apply List.subperm_of_subset hw₂.1
    intro g hg
    rw [groups_mem_iff hw₁ hne₁]
    obtain ⟨f, s, hl⟩ := (groups_mem_iff hw₂ hne₂ g).mp hg
    exact ⟨f, s, (h g f).symm ▸ hl⟩

/-- The entries contributed by one group. -/
def groupBlock (inv : Inventory) (g : String) : List Entry :=
  ((sortedNames (lookupGroup inv g)).enum).map (fun p => (g, p))

theorem allEntries_eq_flatMap {inv : Inventory} (hw : WFInv inv) :
    allEntries inv = (inv.map Prod.fst).flatMap (groupBlock inv) := by
  rw [allEntries, List.flatMap_map]
  apply List.flatMap_congr
  intro e he
  rw [groupBlock, lookupGroup, lookup_of_mem_of_nodup hw.1 ?_]
  · rfl
  · obtain ⟨g, files⟩ := e
    exact he

theorem allEntries_perm_of_invLookup_eq {inv₁ inv₂ : Inventory}
    (hw₁ : WFInv inv₁) (hw₂ : WFInv inv₂) (hne₁ : noEmptyGroups inv₁)
    (hne₂ : noEmptyGroups inv₂)
    (h : ∀ g f, invLookup inv₁ g f = invLookup inv₂ g f) :
    (allEntries inv₁).Perm (allEntries inv₂) := by
  rw [allEntries_eq_flatMap hw₁, allEntries_eq_flatMap hw₂]
  have hgb : ∀ g, groupBlock inv₁ g = groupBlock inv₂ g := by
    intro g
    rw [groupBlock, groupBlock,
      sortedNames_eq_of_perm (lookupGroup_perm_of_invLookup_eq hw₁ hw₂ h g)]
  rw [List.flatMap_congr (fun x _ => hgb x)]
  exact List.Perm.flatMap_right _ (groups_perm hw₁ hw₂ hne₁ hne₂ h)

theorem keyRel_congr {inv₁ inv₂ : Inventory}
    (hlen : ∀ g, (lookupGroup inv₁ g).length = (lookupGroup inv₂ g).length) :
    keyRel inv₁ = keyRel inv₂ := by
  funext x y
  rw [keyRel, keyRel, pkey, pkey, pkey, pkey, hlen, hlen]

theorem ordered_files_eq_of_invLookup_eq {inv₁ inv₂ : Inventory}
    (hw₁ : WFInv inv₁) (hw₂ : WFInv inv₂) (hne₁ : noEmptyGroups inv₁)
    (hne₂ : noEmptyGroups inv₂)
    (h : ∀ g f, invLookup inv₁ g f = invLookup inv₂ g f) :
    ordered_files inv₁ = ordered_files inv₂ := by
  have hlen : ∀ g, (lookupGroup inv₁ g).length =
      (lookupGroup inv₂ g).length :=
    fun g => (lookupGroup_perm_of_invLookup_eq hw₁ hw₂ h g).length_eq
  have hkey := keyRel_congr hlen
  apply List.eq_of_perm_of_sorted (r := keyRel inv₁)
  · exact (ordered_files_perm inv₁).trans
      ((allEntries_perm_of_invLookup_eq hw₁ hw₂ hne₁ hne₂ h).trans
        (ordered_files_perm inv₂).symm)
  · exact ordered_files_pairwise inv₁
  · rw [hkey]
    exact ordered_files_pairwise inv₂

theorem lookupSize_eq_invLookup (inv : Inventory) (g f : String) :
    lookupSize inv g f = (invLookup inv g f).getD 0 := rfl

theorem selGo_congr {inv₁ inv₂ : Inventory} (b : Budgets)
    (h : ∀ g f, invLookup inv₁ g f = invLookup inv₂ g f) :
    ∀ (l : List Entry) (st : SelSt), selGo inv₁ b l st = selGo inv₂ b l st := by
  have hsz : ∀ g f, lookupSize inv₁ g f = lookupSize inv₂ g f := by
    intro g f
    rw [lookupSize_eq_invLookup, lookupSize_eq_invLookup, h]
  intro l
  induction l with
  | nil => intro st; rfl
  | cons x xs ih =>
    intro st
    have hact : activateOf inv₁ b st x.1 x.2.2 = activateOf inv₂ b st x.1 x.2.2 := by
      rw [activateOf, activateOf, hsz]
    have hstep : ∀ a, selStep inv₁ st x.1 x.2.2 a = selStep inv₂ st x.1 x.2.2 a := by
      intro a
      rw [selStep, selStep, hsz]
    simp only [selGo, hact, hstep, ih]

theorem select_files_congr {inv₁ inv₂ : Inventory} (b : Budgets)
    (hw₁ : WFInv inv₁) (hw₂ : WFInv inv₂) (hne₁ : noEmptyGroups inv₁)
    (hne₂ : noEmptyGroups inv₂)
    (h : ∀ g f, invLookup inv₁ g f = invLookup inv₂ g f) :
    select_files inv₁ b = select_files inv₂ b := by
  rw [select_files, select_files,
    ordered_files_eq_of_invLookup_eq hw₁ hw₂ hne₁ hne₂ h, selGo_congr b h]

/-! Section: Behaviour of one reconciliation step -/

theorem node_unique {st : Fs} (hnd : (st.map FileNode.key).Nodup)
    {m n : FileNode} (hm : m ∈ st) (hn : n ∈ st)
    (hkey : m.key = n.key) : m = n := by
  obtain ⟨i, hi, hieq⟩ := List.mem_iff_getElem.mp hm
  obtain ⟨j, hj, hjeq⟩ := List.mem_iff_getElem.mp hn
  have hij : i = j := by
    have hbi : i < (st.map FileNode.key).length := by simpa using hi
    have hbj : j < (st.map FileNode.key).length := by simpa using hj
    have hiff : (st.map FileNode.key)[i] = (st.map FileNode.key)[j] ↔ i = j :=
      List.Nodup.getElem_inj_iff hnd
    apply hiff.mp
    simp only [List.getElem_map]
    rw [hieq, hjeq, hkey]
  subst hij
  exact hieq.symm.trans hjeq

theorem existsOffload_eq {st : Fs} (hnd : (st.map FileNode.key).Nodup)
    {n : FileNode} (hn : n ∈ st) :
    existsOffload st n.dir n.file = n.inOffload := by
  cases hoff : n.inOffload with
  | true =>
    exact List.any_eq_true.mpr ⟨n, hn, by simp [hoff]⟩
  | false =>
    rw [existsOffload]
    by_contra hc
    rw [Bool.not_eq_false, List.any_eq_true] at hc
    obtain ⟨m, hm, hp⟩ := hc
    simp only [Bool.and_eq_true, decide_eq_true_eq] at hp
    have : m = n := node_unique hnd hm hn
      (by rw [FileNode.key, FileNode.key, hp.1.1, hp.1.2])
    rw [this] at hp
    rw [hoff] at hp
    exact Bool.false_ne_true hp.2

theorem existsActive_eq {st : Fs} (hnd : (st.map FileNode.key).Nodup)
    {n : FileNode} (hn : n ∈ st) :
    existsActive st n.dir n.file = n.inActive := by
  cases hact : n.inActive with
  | true =>
    exact List.any_eq_true.mpr ⟨n, hn, by simp [hact]⟩
  | false =>
    rw [existsActive]
    by_contra hc
    rw [Bool.not_eq_false, List.any_eq_true] at hc
    obtain ⟨m, hm, hp⟩ := hc
    simp only [Bool.and_eq_true, decide_eq_true_eq] at hp
    have : m = n := node_unique hnd hm hn
      (by rw [FileNode.key, FileNode.key, hp.1.1, hp.1.2])
    rw [this] at hp
    rw [hact] at hp
    exact Bool.false_ne_true hp.2

/-- Every branch of one reconciliation step maps the state record-wise
through a key-preserving function that leaves every other key's record
untouched. -/
theorem applyDecision_exists_map (st : Fs) (d : Bool × String × String) :
    ∃ G : FileNode → FileNode,
      (∀ n, (G n).dir = n.dir ∧ (G n).file = n.file) ∧
        (∀ n, ¬(n.dir = d.2.1 ∧ n.file = d.2.2) → G n = n) ∧
        (applyDecision st d).1 = st.map G := by
  obtain ⟨a, dir, file⟩ := d
  have hkeep : ∀ (g : FileNode → FileNode),
      (∀ n, (g n).dir = n.dir ∧ (g n).file = n.file) →
      ∃ G : FileNode → FileNode,
        (∀ n, (G n).dir = n.dir ∧ (G n).file = n.file) ∧
          (∀ n, ¬(n.dir = dir ∧ n.file = file) → G n = n) ∧
          updNode dir file g st = st.map G := by
    intro g hg
    refine ⟨fun n => if n.dir = dir ∧ n.file = file then g n else n,
      ?_, ?_, rfl⟩
    · intro n
      by_cases h : n.dir = dir ∧ n.file = file
      · simp [h, hg n]
      · simp [h]
    · intro n h
      simp [h]
  cases a
  · by_cases h2 : existsActive st dir file
    · by_cases h1 : existsOffload st dir file
      · simp only [applyDecision, Bool.false_eq_true, if_false, h2, h1,
          if_true]
        rw [renameActiveToOffload, removeOffloadCopy, updNode, updNode,
          List.map_map]
        refine ⟨_, ?_, ?_, rfl⟩
        · intro n
          simp only [Function.comp_apply]
          by_cases h : n.dir = dir ∧ n.file = file <;> simp [h]
        · intro n h
          simp [Function.comp_apply, h]
      · simp only [applyDecision, Bool.false_eq_true, if_false, h2, h1,
          if_true]
        exact hkeep _ (fun n => ⟨rfl, rfl⟩)
    · simp only [applyDecision, Bool.false_eq_true, if_false, h2]
      exact ⟨id, fun n => ⟨rfl, rfl⟩, fun n _ => rfl, (List.map_id st).symm⟩
  · by_cases h1 : existsOffload st dir file
    · by_cases h2 : existsActive st dir file
      · simp only [applyDecision, if_true, h1, h2]
        exact hkeep _ (fun n => ⟨rfl, rfl⟩)
      · simp only [applyDecision, if_true, h1, h2, if_false]
        exact hkeep _ (fun n => ⟨rfl, rfl⟩)
    · simp only [applyDecision, if_true, h1, if_false]
      exact ⟨id, fun n => ⟨rfl, rfl⟩, fun n _ => rfl, (List.map_id st).symm⟩

theorem applyDecision_key_map (st : Fs) (d : Bool × String × String) :
    ((applyDecision st d).1).map FileNode.key = st.map FileNode.key := by
  obtain ⟨G, hG, -, hmap⟩ := applyDecision_exists_map st d
  rw [hmap, List.map_map]
  apply List.map_congr_left
  intro n _
  simp only [Function.comp_apply, FileNode.key, (hG n).1, (hG n).2]

theorem reconcile_key_map :
    ∀ (ds : List (Bool × String × String)) (st : Fs),
      ((reconcile st ds).1).map FileNode.key = st.map FileNode.key := by
  intro ds
  induction ds with
  | nil => intro st; rfl
  | cons d rest ih =>
    intro st
    simp only [reconcile]
    rw [ih, applyDecision_key_map]

theorem reconcile_cons (st : Fs) (d : Bool × String × String)
    (ds : List (Bool × String × String)) :
    reconcile st (d :: ds) =
      ((reconcile (applyDecision st d).1 ds).1,
        (applyDecision st d).2 ++ (reconcile (applyDecision st d).1 ds).2) :=
  rfl

theorem mem_applyDecision_of_ne {st : Fs} {n : FileNode} (hn : n ∈ st)
    {d : Bool × String × String}
    (h : ¬(n.dir = d.2.1 ∧ n.file = d.2.2)) :
    n ∈ (applyDecision st d).1 := by
  obtain ⟨G, -, hGid, hmap⟩ := applyDecision_exists_map st d
  rw [hmap]
  exact List.mem_map.mpr ⟨n, hn, hGid n h⟩

theorem mem_reconcile_of_ne :
    ∀ (ds : List (Bool × String × String)) (st : Fs) (n : FileNode),
      n ∈ st → (∀ d ∈ ds, ¬(n.dir = d.2.1 ∧ n.file = d.2.2)) →
      n ∈ (reconcile st ds).1 := by
  intro ds
  induction ds with
  | nil => intro st n hn _; exact hn
  | cons d rest ih =>
    intro st n hn hne
    simp only [reconcile]
    exact ih _ n (mem_applyDecision_of_ne hn (hne d (List.mem_cons_self _ _)))
      (fun d' hd' => hne d' (List.mem_cons_of_mem _ hd'))

/-- Settling one decision: the touched record ends in exactly the tree the
decision names, and (when a duplicate's two copies agree in size) its
scan-time size is unchanged. -/
theorem applyDecision_settles {st : Fs} (hnd : (st.map FileNode.key).Nodup)
    {n : FileNode} (hn : n ∈ st)
    (hex : n.inActive = true ∨ n.inOffload = true) (a : Bool) :
    ∃ n' ∈ (applyDecision st (a, n.dir, n.file)).1,
      n'.dir = n.dir ∧ n'.file = n.file ∧ n'.inActive = a ∧
        n'.inOffload = !a ∧
        ((n.inActive = true → n.inOffload = true →
          n.activeSize = n.offloadSize) → scanSize n' = scanSize n) := by
  have hoff := existsOffload_eq hnd hn
  have hact := existsActive_eq hnd hn
  cases a
  · -- decision: offload
    by_cases h2 : n.inActive = true
    · have hst : (applyDecision st (false, n.dir, n.file)).1 =
          if n.inOffload = true then
            renameActiveToOffload n.dir n.file
              (removeOffloadCopy n.dir n.file st)
          else renameActiveToOffload n.dir n.file st := by
        simp only [applyDecision, Bool.false_eq_true, if_false, hact, h2,
          if_true, hoff]
        split <;> rfl
      by_cases h1 : n.inOffload = true
      · refine ⟨{ n with inActive := false, inOffload := true, offloadSize := n.activeSize }, ?_, rfl, rfl, rfl, rfl, ?_⟩
        · rw [hst, h1, if_pos rfl, renameActiveToOffload, removeOffloadCopy,
            updNode, updNode, List.map_map]
          exact List.mem_map.mpr ⟨n, hn, by simp⟩
        · intro hdup
          simp [scanSize, h1, hdup h2 h1]
      · refine ⟨{ n with inActive := false, inOffload := true, offloadSize := n.activeSize }, ?_, rfl, rfl, rfl, rfl, ?_⟩
        · rw [hst, if_neg h1, renameActiveToOffload]
          exact List.mem_map.mpr ⟨n, hn, by simp⟩
        · intro _
          simp only [Bool.not_eq_true] at h1
          simp [scanSize, h1]
    · have h1 : n.inOffload = true := by
        rcases hex with h | h
        · exact absurd h h2
        · exact h
      have h2' : n.inActive = false := by
        simpa using h2
      refine ⟨n, ?_, rfl, rfl, h2', by simp [h1], fun _ => rfl⟩
      simp only [applyDecision, Bool.false_eq_true, if_false, hact, h2',
        if_false]
      exact hn
  · -- decision: activate
    by_cases h1 : n.inOffload = true
    · have hst : (applyDecision st (true, n.dir, n.file)).1 =
          if n.inActive = true then removeOffloadCopy n.dir n.file st
          else renameOffloadToActive n.dir n.file st := by
        simp only [applyDecision, if_true, hoff, h1, hact]
        split <;> rfl
      by_cases h2 : n.inActive = true
      · refine ⟨{ n with inOffload := false }, ?_, rfl, rfl, h2, rfl, ?_⟩
        · rw [hst, if_pos h2, removeOffloadCopy]
          exact List.mem_map.mpr ⟨n, hn, by simp⟩
        · intro hdup
          simp [scanSize, h1, hdup h2 h1]
      · refine ⟨{ n with inActive := true, activeSize := n.offloadSize, inOffload := false }, ?_, rfl, rfl, rfl, rfl, ?_⟩
        · rw [hst, if_neg h2, renameOffloadToActive]
          exact List.mem_map.mpr ⟨n, hn, by simp⟩
        · intro _
          simp [scanSize, h1]
    · have h2 : n.inActive = true := by
        rcases hex with h | h
        · exact h
        · exact absurd h h1
      have h1' : n.inOffload = false := by
        simpa using h1
      refine ⟨n, ?_, rfl, rfl, h2, by simp [h1'], fun _ => rfl⟩
      simp only [applyDecision, if_true, hoff, h1', if_false]
      exact hn

theorem applyDecision_preserves_exists {st : Fs}
    (hnd : (st.map FileNode.key).Nodup)
    (hex : ∀ x ∈ st, x.inActive = true ∨ x.inOffload = true)
    (d : Bool × String × String) :
    ∀ x ∈ (applyDecision st d).1, x.inActive = true ∨ x.inOffload = true := by
  intro x hx
  obtain ⟨a, dir, file⟩ := d
  obtain ⟨G, hG, hGid, hmap⟩ := applyDecision_exists_map st (a, dir, file)
  have hx' := hx
  rw [hmap] at hx'
  obtain ⟨y, hy, hxy⟩ := List.mem_map.mp hx'
  by_cases hkey : y.dir = dir ∧ y.file = file
  · obtain ⟨hd, hf⟩ := hkey
    subst hd hf
    obtain ⟨n', hn', hdir', hfile', hact', hoff', -⟩ :=
      applyDecision_settles hnd hy (hex y hy) a
    have hnd' : (((applyDecision st (a, y.dir, y.file)).1).map
        FileNode.key).Nodup := by
      rw [applyDecision_key_map]
      exact hnd
    have hxeq : x = n' := by
      apply node_unique hnd' hx hn'
      rw [FileNode.key, FileNode.key, hdir', hfile', ← hxy,
        (hG y).1, (hG y).2]
    rw [hxeq, hact', hoff']
    cases a
    · exact Or.inr rfl
    · exact Or.inl rfl
  · rw [hGid y hkey] at hxy
    rw [← hxy]
    exact hex y hy

theorem reconcile_preserves_exists :
    ∀ (ds : List (Bool × String × String)) (st : Fs),
      (st.map FileNode.key).Nodup →
      (∀ x ∈ st, x.inActive = true ∨ x.inOffload = true) →
      ∀ x ∈ (reconcile st ds).1, x.inActive = true ∨ x.inOffload = true := by
  intro ds
  induction ds with
  | nil => intro st _ hex; exact hex
  | cons d rest ih =>
    intro st hnd hex
    simp only [reconcile]
    exact ih _ (by rw [applyDecision_key_map]; exact hnd)
      (applyDecision_preserves_exists hnd hex d)

/-- After the whole loop, the record of each decided key sits in exactly the
tree its decision names; with agreeing duplicate sizes its scan-time size is
unchanged. -/
theorem reconcile_settles :
    ∀ (ds : List (Bool × String × String)) (st : Fs),
      (st.map FileNode.key).Nodup →
      (∀ x ∈ st, x.inActive = true ∨ x.inOffload = true) →
      (ds.map (fun d => (d.2.1, d.2.2))).Nodup →
      ∀ d ∈ ds, ∀ n ∈ st, n.dir = d.2.1 → n.file = d.2.2 →
      ∃ n' ∈ (reconcile st ds).1,
        n'.dir = n.dir ∧ n'.file = n.file ∧ n'.inActive = d.1 ∧
          n'.inOffload = !d.1 ∧
          ((n.inActive = true → n.inOffload = true →
            n.activeSize = n.offloadSize) → scanSize n' = scanSize n) := by
  intro ds
  induction ds with
  | nil => intro st _ _ _ d hd; simp at hd
  | cons d0 rest ih =>
    intro st hnd hex hdnd d hd n hn hdir hfile
    simp only [List.map_cons, List.nodup_cons] at hdnd
    rcases List.mem_cons.mp hd with heq | htail
    · subst heq
      obtain ⟨a, dir, file⟩ := d
      simp only at hdir hfile
      subst hdir hfile
      obtain ⟨n', hn', hd', hf', hact', hoff', hsz'⟩ :=
        applyDecision_settles hnd hn (hex n hn) a
      refine ⟨n', ?_, hd', hf', hact', hoff', hsz'⟩
      simp only [reconcile]
      apply mem_reconcile_of_ne rest _ n' hn'
      intro d' hd'' hcon
      apply hdnd.1
      refine List.mem_map.mpr ⟨d', hd'', ?_⟩
      simp only
      rw [← hcon.1, ← hcon.2, hd', hf']
    · have hne : ¬(n.dir = d0.2.1 ∧ n.file = d0.2.2) := by
        intro hcon
        apply hdnd.1
        refine List.mem_map.mpr ⟨d, htail, ?_⟩
        rw [← hcon.1, ← hcon.2, hdir, hfile]
      simp only [reconcile]
      exact ih _ (by rw [applyDecision_key_map]; exact hnd)
        (applyDecision_preserves_exists hnd hex d0) hdnd.2 d htail n
        (mem_applyDecision_of_ne hn hne) hdir hfile

/-- A state whose records already match the decisions is a fixed point: the
loop performs no action at all. -/
theorem reconcile_noop :
    ∀ (ds : List (Bool × String × String)) (st : Fs),
      (st.map FileNode.key).Nodup →
      (∀ d ∈ ds, ∃ n ∈ st, n.dir = d.2.1 ∧ n.file = d.2.2 ∧
        n.inActive = d.1 ∧ n.inOffload = !d.1) →
      reconcile st ds = (st, []) := by
  intro ds
  induction ds with
  | nil => intro st _ _; rfl
  | cons d rest ih =>
    intro st hnd hmatch
    obtain ⟨n, hn, hdir, hfile, hact, hoff⟩ :=
      hmatch d (List.mem_cons_self _ _)
    have hstep : applyDecision st d = (st, []) := by
      obtain ⟨a, dir, file⟩ := d
      simp only at hdir hfile hact hoff
      subst hdir hfile
      cases a
      · have : existsActive st n.dir n.file = false := by
          rw [existsActive_eq hnd hn, hact]
        simp [applyDecision, this]
      · have : existsOffload st n.dir n.file = false := by
          rw [existsOffload_eq hnd hn, hoff]
          rfl
        simp [applyDecision, this]
    rw [reconcile_cons, hstep]
    show ((reconcile st rest).1, [] ++ (reconcile st rest).2) = (st, [])
    rw [ih st hnd (fun d' hd' => hmatch d' (List.mem_cons_of_mem _ hd'))]
    rfl

/-! Section: The decision list covers exactly the inventory's keys -/

/-- The key of a decision or entry: its (group, relative path). -/
def decKey (d : Bool × String × String) : String × String := (d.2.1, d.2.2)

/-- The key of a processing entry. -/
def entryKey (e : Entry) : String × String := (e.1, e.2.2)

theorem selGo_keys (inv : Inventory) (b : Budgets) :
    ∀ (l : List Entry) (st : SelSt),
      (selGo inv b l st).map decKey = l.map entryKey := by
  intro l
  induction l with
  | nil => intro st; rfl
  | cons x xs ih =>
    intro st
    simp only [selGo, List.map_cons, ih]
    rfl

theorem allEntries_keys_nodup {inv : Inventory} (hwf : WFInv inv) :
    ((allEntries inv).map entryKey).Nodup := by
  rw [allEntries, List.map_flatMap]
  rw [List.nodup_flatMap]
  constructor
  · intro g _
    rw [List.map_map]
    have hc : (entryKey ∘ fun p => (g.1, p)) =
        (fun p : Nat × String => ((g.1 : String), p.2)) := rfl
    rw [hc]
    have h2 : List.map (fun p : Nat × String => ((g.1 : String), p.2))
        (sortedNames g.2).enum =
        List.map (fun f => (g.1, f)) (sortedNames g.2) := by
      rw [show (fun p : Nat × String => ((g.1 : String), p.2)) =
        (fun f => ((g.1 : String), f)) ∘ Prod.snd from rfl]
      rw [← List.map_map, List.enum_map_snd]
    rw [h2]
    apply List.Nodup.map
    · intro a b hab
      simpa using hab
    · exact (List.perm_insertionSort numericLe _).symm.nodup
        (hwf.2 g ‹g ∈ inv›)
  · have hnd := (List.pairwise_map (f := Prod.fst)
      (R := fun a b : String => a ≠ b)).mp hwf.1
    apply hnd.imp
    intro a b hab
    intro e he1 he2
    simp only [List.map_map, List.mem_map] at he1 he2
    obtain ⟨p, -, hp⟩ := he1
    obtain ⟨q, -, hq⟩ := he2
    have h1 : e.1 = a.1 := by rw [← hp]; rfl
    have h2 : e.1 = b.1 := by rw [← hq]; rfl
    exact hab (h1 ▸ h2)

theorem select_files_keys_nodup {inv : Inventory} (hwf : WFInv inv)
    (b : Budgets) : ((select_files inv b).map decKey).Nodup := by
  rw [select_files, selGo_keys]
  exact ((ordered_files_perm inv).map entryKey).symm.nodup
    (allEntries_keys_nodup hwf)

/-- Every key recorded in the inventory receives exactly one decision. -/
theorem decision_exists {inv : Inventory} (hwf : WFInv inv) {g f : String}
    {s : Nat} (h : invLookup inv g f = some s) (b : Budgets) :
    ∃ a, (a, g, f) ∈ select_files inv b := by
  -- the file is in its group's ranked list
  have hlook : ∃ files, inv.lookup g = some files := by
    cases hl : inv.lookup g with
    | none =>
      rw [invLookup, lookupGroup, hl] at h
      simp [List.lookup] at h
    | some files => exact ⟨files, rfl⟩
  obtain ⟨files, hfiles⟩ := hlook
  have hmemg : (g, files) ∈ inv := mem_of_lookup hfiles
  have hf : (f, s) ∈ lookupGroup inv g := by
    apply mem_of_lookup
    exact h
  have hfn : f ∈ sortedNames (lookupGroup inv g) := by
    apply (List.perm_insertionSort numericLe _).symm.subset
    exact List.mem_map.mpr ⟨(f, s), hf, rfl⟩
  obtain ⟨k, hk, hkeq⟩ := List.mem_iff_getElem.mp hfn
  have hentry : (g, k, f) ∈ allEntries inv := by
    rw [allEntries]
    apply List.mem_flatMap.mpr
    refine ⟨(g, files), hmemg, ?_⟩
    apply List.mem_map.mpr
    refine ⟨(k, f), ?_, rfl⟩
    have hlg : lookupGroup inv g = files := by
      rw [lookupGroup, hfiles]
      rfl
    show (k, f) ∈ (sortedNames files).enum
    rw [← hlg]
    have henum := List.getElem_enum (sortedNames (lookupGroup inv g)) k
      (by simpa using hk)
    rw [hkeq] at henum
    exact henum ▸ List.getElem_mem (by simpa using hk)
  have hof : (g, k, f) ∈ ordered_files inv :=
    (ordered_files_perm inv).symm.subset hentry
  obtain ⟨i, hi, hieq⟩ := List.mem_iff_getElem.mp hof
  have hlen2 : i < (selGo inv b (ordered_files inv) initSt).length := by
    rw [selGo_length]
    exact hi
  have hsnd := selGo_getElem_snd inv b (ordered_files inv) initSt i hi hlen2
  rw [hieq] at hsnd
  refine ⟨((selGo inv b (ordered_files inv) initSt)[i]).1, ?_⟩
  show (((selGo inv b (ordered_files inv) initSt)[i]).1, (g : String), f) ∈
    selGo inv b (ordered_files inv) initSt
  have hprod : ((selGo inv b (ordered_files inv) initSt)[i]) =
      (((selGo inv b (ordered_files inv) initSt)[i]).1, (g : String), f) := by
    apply Prod.ext
    · rfl
    · exact hsnd
  rw [← hprod]
  exact List.getElem_mem hlen2

/-- Every decision of a pass names a file that the scan found on disk. -/
theorem ds_covers {st : Fs} (hnd : (st.map FileNode.key).Nodup) (b : Budgets) :
    ∀ d ∈ select_files (collect_files_with_sizes st) b,
      ∃ n ∈ st, n.dir = d.2.1 ∧ n.file = d.2.2 := by
  intro d hd
  have hwf := (collect_wf st).1
  have hkey : decKey d ∈ (select_files (collect_files_with_sizes st) b).map
      decKey := List.mem_map.mpr ⟨d, hd, rfl⟩
  rw [select_files, selGo_keys] at hkey
  obtain ⟨e, he, hek⟩ := List.mem_map.mp hkey
  have he' : e ∈ allEntries (collect_files_with_sizes st) :=
    (ordered_files_perm _).subset he
  obtain ⟨d1, k1, f1⟩ := e
  obtain ⟨hlt, hget⟩ := allEntries_char hwf he'
  have hf1 : f1 ∈ (lookupGroup (collect_files_with_sizes st) d1).map
      Prod.fst := by
    have : f1 ∈ rankedFiles (collect_files_with_sizes st) d1 := by
      rw [← hget]
      exact List.getElem_mem hlt
    exact (List.perm_insertionSort numericLe _).subset this
  obtain ⟨fs, hfs, hfse⟩ := List.mem_map.mp hf1
  obtain ⟨f', s⟩ := fs
  simp only at hfse
  rw [hfse] at hfs
  have hinv : invLookup (collect_files_with_sizes st) d1 f1 = some s :=
    lookup_of_mem_of_nodup (lookupGroup_keys_nodup hwf d1) hfs
  rw [invLookup_collect st hnd] at hinv
  rw [scanOf] at hinv
  cases hfind : st.find? (fun n => n.dir = d1 && n.file = f1 &&
      (n.inActive || n.inOffload)) with
  | none => rw [hfind] at hinv; simp at hinv
  | some n =>
    have hmem := List.mem_of_find?_eq_some hfind
    have hsat := List.find?_some hfind
    simp only [Bool.and_eq_true, Bool.or_eq_true, decide_eq_true_eq] at hsat
    have hdk : decKey d = (d1, f1) := hek.symm
    refine ⟨n, hmem, ?_, ?_⟩
    · rw [hsat.1.1]
      rw [show d.2.1 = (decKey d).1 from rfl, hdk]
    · rw [hsat.1.2]
      rw [show d.2.2 = (decKey d).2 from rfl, hdk]

/-- C7: after one full pass without external interference, every file known
to the inventory exists in exactly one of the two trees (a stale duplicate
has its offload copy removed by the pass). -/
theorem C7_exactly_one_tree (st : Fs) (b : Budgets)
    (hnd : (st.map FileNode.key).Nodup)
    (hex : ∀ x ∈ st, x.inActive = true ∨ x.inOffload = true) :
    ∀ n' ∈ (runPass st b).1,
      (n'.inActive = true ∧ n'.inOffload = false) ∨
        (n'.inActive = false ∧ n'.inOffload = true) := by
  intro n' hn'
  have hkeys := reconcile_key_map
    (select_files (collect_files_with_sizes st) b) st
  have hk : n'.key ∈ st.map FileNode.key := by
    rw [← hkeys]
    exact List.mem_map.mpr ⟨n', hn', rfl⟩
  obtain ⟨n, hn, hkey⟩ := List.mem_map.mp hk
  have hscan : scanOf st n.dir n.file = some (scanSize n) := by
    rw [scanOf, find?_eq_some_of_unique hnd hn ?_ ?_]
    · simp [hex n hn]
    · intro m hm
      simp only [Bool.and_eq_true, Bool.or_eq_true, decide_eq_true_eq] at hm
      rw [FileNode.key, FileNode.key, hm.1.1, hm.1.2]
  have hinv : invLookup (collect_files_with_sizes st) n.dir n.file =
      some (scanSize n) := by
    rw [invLookup_collect st hnd]
    exact hscan
  obtain ⟨a, hdec⟩ := decision_exists (collect_wf st).1 hinv b
  obtain ⟨n'', hm'', hd'', hf'', hact'', hoff'', -⟩ :=
    reconcile_settles (select_files (collect_files_with_sizes st) b) st hnd
      hex (select_files_keys_nodup (collect_wf st).1 b) (a, n.dir, n.file)
      hdec n hn rfl rfl
  have hnd' : (((runPass st b).1).map FileNode.key).Nodup := by
    rw [runPass, reconcile_key_map]
    exact hnd
  have heq : n' = n'' := by
    apply node_unique hnd' hn' hm''
    rw [FileNode.key, FileNode.key, hd'', hf'']
    exact hkey.symm
  rw [heq, hact'', hoff'']
  cases a
  · right
    exact ⟨rfl, rfl⟩
  · left
    exact ⟨rfl, rfl⟩

theorem C7_exactly_one_tree_witness :
    ((([⟨"g", "a1", 10, 10, true, true⟩, ⟨"g", "b2", 0, 100, false, true⟩] :
        Fs).map FileNode.key).Nodup ∧
      (∀ x ∈ ([⟨"g", "a1", 10, 10, true, true⟩,
        ⟨"g", "b2", 0, 100, false, true⟩] : Fs),
        x.inActive = true ∨ x.inOffload = true)) ∧
    ∀ n' ∈ (runPass [⟨"g", "a1", 10, 10, true, true⟩,
        ⟨"g", "b2", 0, 100, false, true⟩] ⟨.inf, .inf, .fin 1000, 0⟩).1,
      (n'.inActive = true ∧ n'.inOffload = false) ∨
        (n'.inActive = false ∧ n'.inOffload = true) :=
  ⟨⟨by decide, by decide⟩, C7_exactly_one_tree
    [⟨"g", "a1", 10, 10, true, true⟩, ⟨"g", "b2", 0, 100, false, true⟩]
    ⟨.inf, .inf, .fin 1000, 0⟩ (by decide) (by decide)⟩

/-- With duplicate copies of equal size, one pass preserves every key's
scan-time size. -/
theorem runPass_scanOf (st : Fs) (b : Budgets)
    (hnd : (st.map FileNode.key).Nodup)
    (hex : ∀ x ∈ st, x.inActive = true ∨ x.inOffload = true)
    (hdup : ∀ x ∈ st, x.inActive = true → x.inOffload = true →
      x.activeSize = x.offloadSize) (g f : String) :
    scanOf (runPass st b).1 g f = scanOf st g f := by
  have hnd1 : (((runPass st b).1).map FileNode.key).Nodup := by
    rw [runPass, reconcile_key_map]
    exact hnd
  cases hcase : st.find? (fun n => n.dir = g && n.file = f &&
      (n.inActive || n.inOffload)) with
  | some n =>
    have hmem := List.mem_of_find?_eq_some hcase
    have hsat := List.find?_some hcase
    simp only [Bool.and_eq_true, Bool.or_eq_true, decide_eq_true_eq] at hsat
    obtain ⟨⟨hd, hf⟩, hex'⟩ := hsat
    have hscan : scanOf st g f = some (scanSize n) := by
      rw [scanOf, hcase]
    have hinv : invLookup (collect_files_with_sizes st) n.dir n.file =
        some (scanSize n) := by
      rw [invLookup_collect st hnd, scanOf,
        find?_eq_some_of_unique hnd hmem ?_ ?_]
      · simp [hex n hmem]
      · intro m hm
        simp only [Bool.and_eq_true, Bool.or_eq_true, decide_eq_true_eq] at hm
        rw [FileNode.key, FileNode.key, hm.1.1, hm.1.2]
    obtain ⟨a, hdec⟩ := decision_exists (collect_wf st).1 hinv b
    obtain ⟨n', hm', hd', hf', hact', hoff', hsz'⟩ :=
      reconcile_settles (select_files (collect_files_with_sizes st) b) st hnd
        hex (select_files_keys_nodup (collect_wf st).1 b) (a, n.dir, n.file)
        hdec n hmem rfl rfl
    have hsz : scanSize n' = scanSize n := hsz' (hdup n hmem)
    have hfin : ((runPass st b).1).find? (fun m => m.dir = g && m.file = f &&
        (m.inActive || m.inOffload)) = some n' := by
      apply find?_eq_some_of_unique hnd1 hm'
      · simp only [Bool.and_eq_true, Bool.or_eq_true, decide_eq_true_eq]
        refine ⟨⟨by rw [hd', hd], by rw [hf', hf]⟩, ?_⟩
        cases a
        · exact Or.inr hoff'
        · exact Or.inl hact'
      · intro m hm
        simp only [Bool.and_eq_true, Bool.or_eq_true, decide_eq_true_eq] at hm
        rw [FileNode.key, FileNode.key, hm.1.1, hm.1.2, hd', hf', hd, hf]
    rw [scanOf, hfin, hscan]
    show some (scanSize n') = some (scanSize n)
    rw [hsz]
  | none =>
    have hnone1 : ((runPass st b).1).find? (fun m => m.dir = g &&
        m.file = f && (m.inActive || m.inOffload)) = none := by
      rw [List.find?_eq_none]
      intro m hm hp
      simp only [Bool.and_eq_true, Bool.or_eq_true, decide_eq_true_eq] at hp
      -- m's key must come from st
      have hk : m.key ∈ st.map FileNode.key := by
        rw [← reconcile_key_map (select_files (collect_files_with_sizes st) b)
          st]
        exact List.mem_map.mpr ⟨m, hm, rfl⟩
      obtain ⟨y, hy, hkey⟩ := List.mem_map.mp hk
      have := List.find?_eq_none.mp hcase y hy
      apply this
      simp only [Bool.and_eq_true, Bool.or_eq_true, decide_eq_true_eq]
      have h1 : y.dir = m.dir := congrArg Prod.fst hkey
      have h2 : y.file = m.file := congrArg Prod.snd hkey
      exact ⟨⟨h1.trans hp.1.1, h2.trans hp.1.2⟩, hex y hy⟩
    rw [scanOf, hnone1, scanOf, hcase]


/-- Counterexample to C6 as stated: a stale duplicate whose two copies have
different sizes.  The first pass removes the offload copy (999 bytes
scanned); the second pass scans the surviving active copy (10 bytes), the
size budget now admits the next file, and the pass performs a rename. -/
theorem C6_counterexample :
    (([⟨"g", "a1", 10, 999, true, true⟩, ⟨"g", "b2", 0, 100, false, true⟩] :
        Fs).map FileNode.key).Nodup ∧
    (∀ x ∈ ([⟨"g", "a1", 10, 999, true, true⟩,
        ⟨"g", "b2", 0, 100, false, true⟩] : Fs),
      x.inActive = true ∨ x.inOffload = true) ∧
    (runPass (runPass [⟨"g", "a1", 10, 999, true, true⟩,
        ⟨"g", "b2", 0, 100, false, true⟩] ⟨.inf, .inf, .fin 1000, 0⟩).1
      ⟨.inf, .inf, .fin 1000, 0⟩).2 ≠ [] := by
  refine ⟨by decide, by decide, ?_⟩
  decide

/-- C6 as amended: when every file present in both trees has copies of equal
size (in particular when there is no stale duplicate at all), the state after
one pass is a fixed point: a second pass performs zero renames and removals
and leaves the state unchanged. -/
theorem C6_second_pass_noop (st : Fs) (b : Budgets)
    (hnd : (st.map FileNode.key).Nodup)
    (hex : ∀ x ∈ st, x.inActive = true ∨ x.inOffload = true)
    (hdup : ∀ x ∈ st, x.inActive = true → x.inOffload = true →
      x.activeSize = x.offloadSize) :
    (runPass (runPass st b).1 b).2 = [] ∧
      (runPass (runPass st b).1 b).1 = (runPass st b).1 := by
  have hnd1 : (((runPass st b).1).map FileNode.key).Nodup := by
    rw [runPass, reconcile_key_map]
    exact hnd
  have hinvs : ∀ g f, invLookup (collect_files_with_sizes (runPass st b).1)
      g f = invLookup (collect_files_with_sizes st) g f := by
    intro g f
    rw [invLookup_collect _ hnd1, invLookup_collect _ hnd,
      runPass_scanOf st b hnd hex hdup]
  have hds : select_files (collect_files_with_sizes (runPass st b).1) b =
      select_files (collect_files_with_sizes st) b :=
    select_files_congr b (collect_wf _).1 (collect_wf _).1
      (collect_wf _).2 (collect_wf _).2 hinvs
  have hmatch : ∀ d ∈ select_files (collect_files_with_sizes st) b,
      ∃ n ∈ (runPass st b).1, n.dir = d.2.1 ∧ n.file = d.2.2 ∧
        n.inActive = d.1 ∧ n.inOffload = !d.1 := by
    intro d hd
    obtain ⟨n, hn, hdir, hfile⟩ := ds_covers hnd b d hd
    obtain ⟨d1, dir, file⟩ := d
    simp only at hdir hfile
    subst hdir hfile
    obtain ⟨n', hm', hd', hf', hact', hoff', -⟩ :=
      reconcile_settles (select_files (collect_files_with_sizes st) b) st hnd
        hex (select_files_keys_nodup (collect_wf st).1 b) (d1, n.dir, n.file)
        hd n hn rfl rfl
    exact ⟨n', hm', hd', hf', hact', hoff'⟩
  have hno := reconcile_noop (select_files (collect_files_with_sizes st) b)
    (runPass st b).1 hnd1 hmatch
  constructor
  · show (reconcile (runPass st b).1
      (select_files (collect_files_with_sizes (runPass st b).1) b)).2 = []
    rw [hds, hno]
  · show (reconcile (runPass st b).1
      (select_files (collect_files_with_sizes (runPass st b).1) b)).1 =
      (runPass st b).1
    rw [hds, hno]

theorem C6_second_pass_noop_witness :
    ((([⟨"g", "a1", 999, 999, true, true⟩,
        ⟨"g", "b2", 0, 100, false, true⟩] : Fs).map FileNode.key).Nodup ∧
      (∀ x ∈ ([⟨"g", "a1", 999, 999, true, true⟩,
        ⟨"g", "b2", 0, 100, false, true⟩] : Fs),
        x.inActive = true ∨ x.inOffload = true) ∧
      (∀ x ∈ ([⟨"g", "a1", 999, 999, true, true⟩,
        ⟨"g", "b2", 0, 100, false, true⟩] : Fs),
        x.inActive = true → x.inOffload = true →
          x.activeSize = x.offloadSize)) ∧
    ((runPass (runPass [⟨"g", "a1", 999, 999, true, true⟩,
        ⟨"g", "b2", 0, 100, false, true⟩] ⟨.inf, .inf, .fin 1000, 0⟩).1
      ⟨.inf, .inf, .fin 1000, 0⟩).2 = [] ∧
      (runPass (runPass [⟨"g", "a1", 999, 999, true, true⟩,
        ⟨"g", "b2", 0, 100, false, true⟩] ⟨.inf, .inf, .fin 1000, 0⟩).1
        ⟨.inf, .inf, .fin 1000, 0⟩).1 =
        (runPass [⟨"g", "a1", 999, 999, true, true⟩,
          ⟨"g", "b2", 0, 100, false, true⟩] ⟨.inf, .inf, .fin 1000, 0⟩).1) :=
  ⟨⟨by decide, by decide, by decide⟩, C6_second_pass_noop
    [⟨"g", "a1", 999, 999, true, true⟩, ⟨"g", "b2", 0, 100, false, true⟩]
    ⟨.inf, .inf, .fin 1000, 0⟩ (by decide) (by decide) (by decide)⟩

/-! Section: Claim C8, empty-directory pruning after an activation

The source (lines 51-55):
```python
def remove_empty_parents(path, root):
    parent = os.path.dirname(path)

    if is_subdir_of(parent, root) and all(i.startswith('.') and not os.path.isdir(os.path.join(path, i)) for i in os.listdir(parent)):
        remove(parent, root)
```
`remove(parent, root)` deletes `parent` and recurses with
`remove_empty_parents(parent, root)`.  The call after an activation
(line 256) is
```python
rename(offload_path, active_path)
remove_empty_parents(offload_path, os.path.join(active_dir, dir))
```
so the pruning root passed is the group's directory in the ACTIVE tree even
though the path being pruned lies in the offload tree.  The model below
follows the path strings exactly (`os.path.dirname`, the string-based
`is_subdir_of`, and the `os.path.join(path, i)` quirk of probing children of
the already-moved path). -/

/-- The value of `os.path.dirname` for slash-separated paths: drop the last
component ("/a/b" → "/a", "/a" → "/", "a" → ""). -/
def dirname (p : String) : String :=
  let headRev := p.data.reverse.dropWhile (fun c => c ≠ '/')
  if headRev.all (fun c => c = '/') then ⟨headRev.reverse⟩
  else ⟨(headRev.dropWhile (fun c => c = '/')).reverse⟩

/-- The last path component. -/
def basename (p : String) : String :=
  ⟨(p.data.reverse.takeWhile (fun c => c ≠ '/')).reverse⟩

/-- A snapshot of the directory tree for the pruning analysis: which
absolute paths are directories and which are files. -/
structure DirTree where
  dirs : List String
  files : List String
deriving DecidableEq

/-- The value of `os.path.join(a, b)` for a relative second argument. -/
def joinPath (a b : String) : String := a ++ "/" ++ b

/-- Truth of `os.path.isdir(p)`. -/
def isdir (t : DirTree) (p : String) : Bool := t.dirs.contains p

/-- The value of `os.listdir(d)`: the names of the immediate children. -/
def listdir (t : DirTree) (d : String) : List String :=
  ((t.dirs ++ t.files).filter (fun p => dirname p = d)).map basename

/-- Truth of `i.startswith('.')`. -/
def startsWithDot (s : String) : Bool :=
  match s.data with
  | c :: _ => c = '.'
  | [] => false

/-- Deletion of a path together with everything below it
(`shutil.rmtree` / `os.unlink`). -/
def removePath (t : DirTree) (p : String) : DirTree :=
  { dirs := t.dirs.filter
      (fun q => !(q = p || List.isPrefixOf (p ++ "/").data q.data)),
    files := t.files.filter
      (fun q => !(q = p || List.isPrefixOf (p ++ "/").data q.data)) }

/-- The mutual recursion of `remove_empty_parents` and `remove`, driven by a
fuel bound (each step moves to the parent, which is a strictly shorter
string, so `path.length` fuel suffices).  Returns the final tree and the
removed directories in order. -/
def removeEmptyParentsAux : Nat → DirTree → String → String →
    DirTree × List String
  | 0, t, _, _ => (t, [])
  | fuel + 1, t, path, root =>
    let parent := dirname path
    if is_subdir_of parent root &&
        (listdir t parent).all (fun i =>
          startsWithDot i && !(isdir t (joinPath path i))) then
      let t' := removePath t parent
      let rest := removeEmptyParentsAux fuel t' parent root
      (rest.1, parent :: rest.2)
    else (t, [])

/-- The function `remove_empty_parents(path, root)` on the tree model. -/
def remove_empty_parents (t : DirTree) (path root : String) :
    DirTree × List String :=
  removeEmptyParentsAux path.length t path root

/-- C8 on the code as written: after activating "show/d1/f1.mp4" the
directory "/offload/show/d1" is left with no entries, yet the call
`remove_empty_parents(offload_path, os.path.join(active_dir, dir))` removes
nothing, because the root passed is "/active/show" and no offload-tree
parent is a string extension of it.  With the offload root the claim
describes, the same state would have been pruned (indeed up to and including
the root).  The claim describes the intended behaviour; the code passes the
wrong root. -/
theorem C8_wrong_pruning_root :
    listdir ⟨["/active", "/active/show", "/active/show/d1", "/offload",
        "/offload/show", "/offload/show/d1"],
      ["/active/show/d1/f1.mp4"]⟩ "/offload/show/d1" = [] ∧
    is_subdir_of (dirname "/offload/show/d1/f1.mp4") "/active/show" = false ∧
    remove_empty_parents ⟨["/active", "/active/show", "/active/show/d1",
        "/offload", "/offload/show", "/offload/show/d1"],
      ["/active/show/d1/f1.mp4"]⟩ "/offload/show/d1/f1.mp4" "/active/show" =
      (⟨["/active", "/active/show", "/active/show/d1", "/offload",
        "/offload/show", "/offload/show/d1"],
        ["/active/show/d1/f1.mp4"]⟩, []) ∧
    (remove_empty_parents ⟨["/active", "/active/show", "/active/show/d1",
        "/offload", "/offload/show", "/offload/show/d1"],
      ["/active/show/d1/f1.mp4"]⟩ "/offload/show/d1/f1.mp4" "/offload").2 =
      ["/offload/show/d1", "/offload/show", "/offload"] := by
  decide

end Mediaqueue
